import Mathlib

/-!
Verification of the keyword-extraction / résumé-tailoring / diff-rendering core
of `app.py`.

Texts are shallowly embedded as `List Char` (Python `str`), restricted to the
ASCII behaviour of Python's character classes (`[a-zA-Z]`, `\d`, `\w`, `\s`,
`str.lower`, `str.strip`, `str.split`): every concrete input considered here is
ASCII, and on ASCII these Lean models agree with Python exactly.

Recursions that Python expresses as unbounded loops are given an explicit
recursion budget (`fuel`) chosen at each call site to be at least the input
length, so the budget is never exhausted before the loop's own exit condition
fires; this keeps every definition structurally recursive and hence evaluable
by `decide` / `rfl`.
-/

set_option maxRecDepth 100000
set_option maxHeartbeats 1000000

/-- Python `\s` (ASCII range): space, tab, newline, carriage return,
vertical tab, form feed.  Also the character class used by `str.split()`
and `str.strip()`. -/
def isPySpace (c : Char) : Bool :=
  c == ' ' || c == '\t' || c == '\n' || c == '\r' || c == '\x0b' || c == '\x0c'

/-- Python `\w` (ASCII range): letters, digits, underscore.  Used for the
word-boundary `\b` of the phrase regex. -/
def isWordChar (c : Char) : Bool :=
  c.isAlpha || c.isDigit || c == '_'

/-- Python `str.split()` (split on runs of whitespace, dropping empty pieces).
Implemented as a single right fold carrying the word currently being built. -/
def pySplitAux (c : Char) (acc : List Char × List (List Char)) :
    List Char × List (List Char) :=
  if isPySpace c then ([], if acc.1 = [] then acc.2 else acc.1 :: acc.2)
  else (c :: acc.1, acc.2)

def pySplit (cs : List Char) : List (List Char) :=
  let r := cs.foldr pySplitAux ([], [])
  if r.1 = [] then r.2 else r.1 :: r.2

/-- Python `str.strip()`: drop leading and trailing whitespace. -/
def pyStrip (cs : List Char) : List Char :=
  ((cs.dropWhile isPySpace).reverse.dropWhile isPySpace).reverse

/-- Python `str.split("\n")`: split at every newline, keeping empty pieces. -/
def splitNl (cs : List Char) : List (List Char) :=
  let r := cs.foldr
    (fun c acc => if c == '\n' then (([] : List Char), acc.1 :: acc.2)
                  else (c :: acc.1, acc.2)) ([], [])
  r.1 :: r.2

/-- Python `str.lower()` (ASCII). -/
def pyLower (cs : List Char) : List Char := cs.map Char.toLower

/-- Python `str.isdigit()` (ASCII): non-empty and all digits. -/
def pyIsDigit (cs : List Char) : Bool := !(cs = []) && cs.all Char.isDigit

/-!
## The phrase regex

`re.findall(r'\b[a-zA-Z]{3,}(?:\s+[a-zA-Z]{3,}){0,2}\b', text)`.

A match must start at a word boundary on a maximal run of ≥ 3 ASCII letters
(backtracking into a letter run always fails, because the character after a
shortened run is a letter, which kills both `\s+` and the final `\b`); the
greedy group then tries to append up to two `whitespace⁺ + letter-run(≥3)`
units, and the final `\b` forces the character after the last consumed run to
be a non-word character (or end of input).  On failure of the final `\b` the
engine drops trailing units one at a time (a dropped unit leaves whitespace as
the next character, so the earlier `\b` then succeeds).  `findall` scans left
to right and resumes after each non-overlapping match.
-/

/-- Word boundary `\b` between a just-consumed letter and the rest of the
input: succeeds at end of input or before a non-word character. -/
def bAfter : List Char → Bool
  | [] => true
  | c :: _ => !(isWordChar c)

/-- One greedy unit of the optional group: `\s+` then a maximal run of ≥ 3
ASCII letters.  Returns the consumed characters and the remaining input. -/
def matchUnit (cs : List Char) : Option (List Char × List Char) :=
  let s1 := cs.span isPySpace
  if s1.1 = [] then none
  else
    let s2 := s1.2.span Char.isAlpha
    if s2.1.length < 3 then none
    else some (s1.1 ++ s2.1, s2.2)

/-- Greedy match of the regex tail after the first (maximal, ≥ 3) letter run
`run0`, with `r0` the input following it: try two units, then one, then zero,
requiring the word boundary after whatever was kept. -/
def tryMatch (run0 r0 : List Char) : Option (List Char × List Char) :=
  match matchUnit r0 with
  | none => if bAfter r0 then some (run0, r0) else none
  | some (u1, r1) =>
    match matchUnit r1 with
    | none =>
      if bAfter r1 then some (run0 ++ u1, r1)
      else if bAfter r0 then some (run0, r0) else none
    | some (u2, r2) =>
      if bAfter r2 then some (run0 ++ u1 ++ u2, r2)
      else if bAfter r1 then some (run0 ++ u1, r1)
      else if bAfter r0 then some (run0, r0) else none

/-- `re.findall` scan: `prevWord` records whether the previous character was a
word character (so `\b` holds exactly when it is `false`).  A match is
attempted only at a boundary position opening a letter run of length ≥ 3;
otherwise the scan advances one character, exactly like the regex engine
trying successive start positions. -/
def findallGo : Nat → Bool → List Char → List (List Char)
  | 0, _, _ => []
  | _, _, [] => []
  | Nat.succ fuel, prevWord, c :: rest =>
    if prevWord || !(c.isAlpha) then findallGo fuel (isWordChar c) rest
    else
      let s := (c :: rest).span Char.isAlpha
      if s.1.length < 3 then findallGo fuel (isWordChar c) rest
      else
        match tryMatch s.1 s.2 with
        | some (m, r) => m :: findallGo fuel true r
        | none => findallGo fuel (isWordChar c) rest

/-- `re.findall(r'\b[a-zA-Z]{3,}(?:\s+[a-zA-Z]{3,}){0,2}\b', cs)`.
Each step of `findallGo` consumes at least one character, so the budget
`cs.length + 1` is never exhausted before the input is. -/
def pyFindall (cs : List Char) : List (List Char) :=
  findallGo (cs.length + 1) false cs

/-!
## Keyword extraction (`extract_jargon_keywords`)
-/

/-- The module-level `STOPWORDS` constant: the words of the triple-quoted
string from `app.py` (the Lean literal joins the source's five lines with
single spaces; `str.split()` is insensitive to the difference). -/
def STOPWORDS : List (List Char) :=
  pySplit ("a an the and or but for from in on to with by as at of be been being am is are was were will can must should could may might would have has had do does did not your their our my its you they we i this that these those such other more some many few about it them us her him she he where when how what who which if then else than because since until while although though before after above below between during per each every own same so very into over under around out up down off across near far much also even".data)

/-- The list-comprehension filter of `extract_jargon_keywords`: keep `p` unless
all its words are stopwords, or it has more than 3 words, or it is all
digits. -/
def phraseFilter (p : List Char) : Bool :=
  !((pySplit p).all (fun w => STOPWORDS.contains w))
  && decide ((pySplit p).length ≤ 3)
  && !(pyIsDigit p)

/-- `filtered = [p.strip() for p in phrases if ...]`. -/
def filteredPhrases (phrases : List (List Char)) : List (List Char) :=
  (phrases.filter phraseFilter).map pyStrip

/-- First-occurrence deduplication, i.e. Python's `list(dict.fromkeys(l))`
and also the key order of `Counter(l)` (a `dict` iterates in insertion
order). -/
def dedupAux (seen : List (List Char)) : List (List Char) → List (List Char)
  | [] => []
  | a :: l => if seen.contains a then dedupAux seen l
              else a :: dedupAux (a :: seen) l

def pyDedup (l : List (List Char)) : List (List Char) := dedupAux [] l

/-- `Counter(filtered).items()`: pairs `(phrase, multiplicity)` in first-seen
order. -/
def counterItems (l : List (List Char)) : List (List Char × Nat) :=
  (pyDedup l).map (fun s => (s, l.count s))

/-- The sort key `lambda x: (len(x[0].split()), x[1])`. -/
def phraseKey (x : List Char × Nat) : Nat × Nat := ((pySplit x.1).length, x.2)

/-- `x` sorts no later than `y` under `sorted(..., reverse=True)`:
its key is lexicographically ≥. -/
def keyGe (x y : List Char × Nat) : Prop :=
  (phraseKey y).1 < (phraseKey x).1 ∨
  ((phraseKey x).1 = (phraseKey y).1 ∧ (phraseKey y).2 ≤ (phraseKey x).2)

instance keyGeDec (x y : List Char × Nat) : Decidable (keyGe x y) :=
  inferInstanceAs (Decidable (_ ∨ _))

/-- Insert into a descending-sorted list, before the first element it is ≥;
this places an element after every strictly greater key and before every
equal-or-smaller key, which is exactly the stable descending order of
Python's `sorted(..., reverse=True)` (reverse=True flips comparisons but
never reorders equal keys). -/
def insertDesc (x : List Char × Nat) : List (List Char × Nat) → List (List Char × Nat)
  | [] => [x]
  | y :: l => if keyGe x y then x :: y :: l else y :: insertDesc x l

/-- `sorted(freq.items(), key=lambda x: (len(x[0].split()), x[1]), reverse=True)`:
the unique stable descending sort by `phraseKey`. -/
def sortDesc : List (List Char × Nat) → List (List Char × Nat)
  | [] => []
  | x :: l => insertDesc x (sortDesc l)

/-- `extract_jargon_keywords(text, max_count)` from `app.py`. -/
def extract_jargon_keywords (text : List Char) (max_count : Nat) : List (List Char) :=
  if text = [] then []
  else
    let phrases := pyFindall (pyLower text)
    let filtered := filteredPhrases phrases
    let ranked := sortDesc (counterItems filtered)
    let keywords := (ranked.take max_count).map Prod.fst
    pyDedup keywords

/-!
## Résumé tailoring (`tailor_resume`)
-/

/-- `needle` occurs at the start of `hay`. -/
def beginsWith : List Char → List Char → Bool
  | [], _ => true
  | _ :: _, [] => false
  | c :: cs, d :: ds => c == d && beginsWith cs ds

/-- Python's substring test `needle in hay`. -/
def pyInStr (needle : List Char) : List Char → Bool
  | [] => needle == []
  | d :: ds => beginsWith needle (d :: ds) || pyInStr needle ds

/-- `lines = [l.strip() for l in resume_text.split("\n") if l.strip()]`. -/
def resumeLines (resume_text : List Char) : List (List Char) :=
  ((splitNl resume_text).map pyStrip).filter (fun l => !(l = []))

/-- `lower_resume = " ".join(lines).lower()`. -/
def lowerResume (resume_text : List Char) : List Char :=
  pyLower (List.intercalate (" ".data) (resumeLines resume_text))

/-- `missing = [k for k in keywords if k not in lower_resume]`. -/
def missingKeywords (keywords : List (List Char)) (resume_text : List Char) :
    List (List Char) :=
  keywords.filter (fun k => !(pyInStr k (lowerResume resume_text)))

/-- `matched = [k for k in keywords if k in line.lower()]`. -/
def matchedKeywords (keywords : List (List Char)) (line : List Char) :
    List (List Char) :=
  keywords.filter (fun k => pyInStr k (pyLower line))

/-- The per-line output of the tailoring loop: `f"- {line}  (keywords: ...)"`
when some keyword matches, else `f"- {line}"`. -/
def tailoredLine (keywords : List (List Char)) (line : List Char) : List Char :=
  if matchedKeywords keywords line = [] then "- ".data ++ line
  else "- ".data ++ line ++ "  (keywords: ".data
       ++ List.intercalate (", ".data) (matchedKeywords keywords line) ++ ")".data

/-- One suggestion bullet. -/
def suggestionLine (kw : List Char) : List Char :=
  "- Suggested: Add details or examples demonstrating experience with \x27".data
  ++ kw ++ "\x27.".data

/-- `tailor_resume(resume_text, job_text)` from `app.py`. -/
def tailor_resume (resume_text job_text : List Char) : List Char :=
  let keywords := extract_jargon_keywords job_text 40
  let tailored_lines := (resumeLines resume_text).map (tailoredLine keywords)
  let suggestions :=
    ((missingKeywords keywords resume_text).take 10).map suggestionLine
  List.intercalate ("\n".data)
    (tailored_lines ++ [[], "--- Suggested Additions ---".data] ++ suggestions)

/-!
## Cover letter (`generate_cover_letter`)

`date.today()` is an effect; the embedding takes the current date as an
explicit parameter and models `strftime("%B %d, %Y")` (full month name,
zero-padded day, year). -/

structure PyDate where
  year : Nat
  month : Nat
  day : Nat

/-- `%B`: full month name. -/
def monthName : Nat → List Char
  | 1 => "January".data
  | 2 => "February".data
  | 3 => "March".data
  | 4 => "April".data
  | 5 => "May".data
  | 6 => "June".data
  | 7 => "July".data
  | 8 => "August".data
  | 9 => "September".data
  | 10 => "October".data
  | 11 => "November".data
  | 12 => "December".data
  | _ => []

/-- `%d`: day zero-padded to two digits. -/
def fmtDay (d : Nat) : List Char :=
  if d < 10 then '0' :: (Nat.repr d).data else (Nat.repr d).data

/-- `date.strftime("%B %d, %Y")`. -/
def strftimeBdY (t : PyDate) : List Char :=
  monthName t.month ++ " ".data ++ fmtDay t.day ++ ", ".data ++ (Nat.repr t.year).data

/-- `generate_cover_letter(name, company, position, job_text, summary)` from
`app.py`, with today's date supplied as a parameter. -/
def generate_cover_letter (today : PyDate)
    (name company position job_text summary : List Char) : List Char :=
  let keywords := extract_jargon_keywords job_text 10
  let top_keywords := List.intercalate (", ".data) (keywords.take 6)
  strftimeBdY today
  ++ "\n\nDear Hiring Team at ".data ++ company
  ++ ",\n\nI am excited to apply for the ".data ++ position
  ++ " role. My background aligns closely with this opportunity, especially in areas such as ".data
  ++ top_keywords ++ ". ".data ++ summary
  ++ "\n\nI look forward to contributing to ".data ++ company
  ++ "\x27s success.\n\nSincerely,\n".data ++ name

/-!
## HTML escaping (`escape_html`)
-/

/-- Python `s.replace(pat, repl)` for a single-character pattern. -/
def pyReplaceChar (pat : Char) (repl : List Char) (s : List Char) : List Char :=
  s.foldr (fun c acc => if c == pat then repl ++ acc else c :: acc) []

/-- `escape_html` from `app.py`: the four chained `str.replace` calls. -/
def escape_html (s : List Char) : List Char :=
  pyReplaceChar '"' ("&quot;".data)
    (pyReplaceChar '>' ("&gt;".data)
      (pyReplaceChar '<' ("&lt;".data)
        (pyReplaceChar '&' ("&amp;".data) s)))

/-!
## `difflib.SequenceMatcher` (word level, `isjunk=None`, `autojunk=True`)

The sequences compared are lists of words (`List (List Char)`).  With
`isjunk=None` the junk set `bjunk` is empty, so `isbjunk` is constantly
false; the two junk-extension loops of `find_longest_match` never run and
the `not isbjunk(...)` conjuncts of the other two loops are vacuous.  The
`j2len` dict is modelled as a total function `Nat → Nat` with 0 for absent
keys, matching `j2len.get(j-1, 0)` (stored values are always ≥ 1). -/

/-- The occurrence-index list `b2j[w]` before the autojunk purge: all `j` with
`b[j] = w`, in increasing order (dict values are built by appending). -/
def occIdx (b : List (List Char)) (w : List Char) : List Nat :=
  (List.range b.length).filter (fun j => b.getD j [] = w)

/-- `b2j` with the autojunk purge: for `len(b) >= 200`, indices of an element
occurring more than `len(b) // 100 + 1` times are removed. -/
def b2j (b : List (List Char)) (w : List Char) : List Nat :=
  let occ := occIdx b w
  if 200 ≤ b.length ∧ b.length / 100 + 1 < occ.length then [] else occ

structure FlmBest where
  besti : Nat
  bestj : Nat
  bestsize : Nat

/-- Inner loop of `find_longest_match` at row `i`: fold over the in-range
occurrence indices `j`, building `newj2len` and updating the running best.
`k = j2lenget(j-1, 0) + 1` reads the PREVIOUS row (`old`); the `j = 0` case
corresponds to Python's failing lookup of `-1`. -/
def flmInner (old : Nat → Nat) (i : Nat) :
    ((Nat → Nat) × FlmBest) → List Nat → ((Nat → Nat) × FlmBest)
  | st, [] => st
  | (nw, best), j :: js =>
    let k := (if j = 0 then 0 else old (j - 1)) + 1
    let nw' := fun m => if m = j then k else nw m
    let best' := if best.bestsize < k then ⟨i + 1 - k, j + 1 - k, k⟩ else best
    flmInner old i (nw', best') js

/-- Outer loop of `find_longest_match` over `i ∈ range(alo, ahi)`. -/
def flmLoop (a b : List (List Char)) (blo bhi : Nat) :
    List Nat → ((Nat → Nat) × FlmBest) → ((Nat → Nat) × FlmBest)
  | [], st => st
  | i :: is, (old, best) =>
    let js := (b2j b (a.getD i [])).filter (fun j => blo ≤ j && j < bhi)
    let st' := flmInner old i ((fun _ => 0), best) js
    flmLoop a b blo bhi is (st'.1, st'.2)

/-- First extension loop: grow the best block leftwards over equal elements
(`isbjunk` is constantly false).  The loop runs at most `besti` times, so the
fuel `besti` is exact. -/
def extendLeft (a b : List (List Char)) (alo blo : Nat) :
    Nat → FlmBest → FlmBest
  | 0, best => best
  | Nat.succ fuel, best =>
    if alo < best.besti ∧ blo < best.bestj ∧
       a.getD (best.besti - 1) [] = b.getD (best.bestj - 1) [] then
      extendLeft a b alo blo fuel ⟨best.besti - 1, best.bestj - 1, best.bestsize + 1⟩
    else best

/-- Second extension loop: grow the best block rightwards over equal
elements.  Runs at most `ahi` times. -/
def extendRight (a b : List (List Char)) (ahi bhi : Nat) :
    Nat → FlmBest → FlmBest
  | 0, best => best
  | Nat.succ fuel, best =>
    if best.besti + best.bestsize < ahi ∧ best.bestj + best.bestsize < bhi ∧
       a.getD (best.besti + best.bestsize) [] = b.getD (best.bestj + best.bestsize) [] then
      extendRight a b ahi bhi fuel ⟨best.besti, best.bestj, best.bestsize + 1⟩
    else best

/-- `find_longest_match(alo, ahi, blo, bhi)` (with empty junk set). -/
def find_longest_match (a b : List (List Char)) (alo ahi blo bhi : Nat) : FlmBest :=
  let st := flmLoop a b blo bhi (List.range' alo (ahi - alo)) ((fun _ => 0), ⟨alo, blo, 0⟩)
  let best := extendLeft a b alo blo st.2.besti st.2
  extendRight a b ahi bhi ahi best

/-- `get_matching_blocks`'s divide-and-conquer, written as in-order recursion
instead of Python's explicit stack: CPython collects the blocks in stack-pop
order and then sorts them, and since the recursive sub-ranges are disjoint and
ordered, the in-order traversal yields exactly that sorted list.  Each
recursive call strictly shrinks `ahi - alo` (the returned block is non-empty
and inside the range), so fuel `a.length + 1` is never exhausted. -/
def matchingBlocksGo (a b : List (List Char)) :
    Nat → Nat → Nat → Nat → Nat → List (Nat × Nat × Nat)
  | 0, _, _, _, _ => []
  | Nat.succ fuel, alo, ahi, blo, bhi =>
    let m := find_longest_match a b alo ahi blo bhi
    if m.bestsize = 0 then []
    else
      (if alo < m.besti ∧ blo < m.bestj then
         matchingBlocksGo a b fuel alo m.besti blo m.bestj else [])
      ++ [(m.besti, m.bestj, m.bestsize)]
      ++ (if m.besti + m.bestsize < ahi ∧ m.bestj + m.bestsize < bhi then
            matchingBlocksGo a b fuel (m.besti + m.bestsize) ahi
              (m.bestj + m.bestsize) bhi else [])

/-- The adjacency-merging pass of `get_matching_blocks` (`non_adjacent`),
carrying the accumulator `(i1, j1, k1)` that starts at `(0, 0, 0)`. -/
def mergeBlocks : (Nat × Nat × Nat) → List (Nat × Nat × Nat) → List (Nat × Nat × Nat)
  | acc, [] => if acc.2.2 ≠ 0 then [acc] else []
  | (i1, j1, k1), (i2, j2, k2) :: rest =>
    if i1 + k1 = i2 ∧ j1 + k1 = j2 then mergeBlocks (i1, j1, k1 + k2) rest
    else (if k1 ≠ 0 then [(i1, j1, k1)] else []) ++ mergeBlocks (i2, j2, k2) rest

/-- `get_matching_blocks(a, b)`: merged blocks plus the `(la, lb, 0)`
sentinel. -/
def get_matching_blocks (a b : List (List Char)) : List (Nat × Nat × Nat) :=
  mergeBlocks (0, 0, 0)
    (matchingBlocksGo a b (a.length + 1) 0 a.length 0 b.length)
  ++ [(a.length, b.length, 0)]

inductive DTag where
  | equal : DTag
  | insert : DTag
  | delete : DTag
  | replace : DTag
deriving DecidableEq, Repr

/-- The opcode-emitting loop of `get_opcodes`. -/
def opcodesGo : Nat → Nat → List (Nat × Nat × Nat) → List (DTag × Nat × Nat × Nat × Nat)
  | _, _, [] => []
  | i, j, (ai, bj, size) :: rest =>
    (if i < ai ∧ j < bj then [(DTag.replace, i, ai, j, bj)]
     else if i < ai then [(DTag.delete, i, ai, j, bj)]
     else if j < bj then [(DTag.insert, i, ai, j, bj)]
     else [])
    ++ (if size ≠ 0 then [(DTag.equal, ai, ai + size, bj, bj + size)] else [])
    ++ opcodesGo (ai + size) (bj + size) rest

/-- `SequenceMatcher(None, a, b).get_opcodes()`. -/
def get_opcodes (a b : List (List Char)) : List (DTag × Nat × Nat × Nat × Nat) :=
  opcodesGo 0 0 (get_matching_blocks a b)

/-!
## Unified colored diff (`make_colored_unified_html`)
-/

/-- Python slice `l[i1:i2]`. -/
def pySlice (l : List (List Char)) (i1 i2 : Nat) : List (List Char) :=
  (l.drop i1).take (i2 - i1)

/-- `" ".join(words)`. -/
def joinWords (ws : List (List Char)) : List Char :=
  List.intercalate (" ".data) ws

def styleAdd : List Char :=
  "background:#d8ebff;padding:2px;border-radius:3px;".data

def styleDel : List Char :=
  "background:#ffd6d6;text-decoration:line-through;padding:2px;border-radius:3px;".data

def styleRepNew : List Char :=
  "background:#fff7cc;padding:2px;border-radius:3px;".data

def styleRepOld : List Char :=
  "background:#ffd6d6;text-decoration:line-through;padding:2px;border-radius:3px;".data

/-- `f"<span style='{style}'>{inner}</span>"`. -/
def spanWrap (style inner : List Char) : List Char :=
  "<span style=\x27".data ++ style ++ "\x27>".data ++ inner ++ "</span>".data

/-- The `parts` entries appended for one opcode: equal text is escaped and
bare; insert/delete text is escaped inside one styled span; a replace emits
the escaped old text in a `rep_old` span followed by the escaped new text in
a `rep_new` span. -/
def renderOp (orig_words new_words : List (List Char))
    (op : DTag × Nat × Nat × Nat × Nat) : List (List Char) :=
  match op with
  | (DTag.equal, i1, i2, _, _) =>
    [escape_html (joinWords (pySlice orig_words i1 i2))]
  | (DTag.insert, _, _, j1, j2) =>
    [spanWrap styleAdd (escape_html (joinWords (pySlice new_words j1 j2)))]
  | (DTag.delete, i1, i2, _, _) =>
    [spanWrap styleDel (escape_html (joinWords (pySlice orig_words i1 i2)))]
  | (DTag.replace, i1, i2, j1, j2) =>
    [spanWrap styleRepOld (escape_html (joinWords (pySlice orig_words i1 i2))),
     spanWrap styleRepNew (escape_html (joinWords (pySlice new_words j1 j2)))]

/-- The full `parts` list of `make_colored_unified_html`. -/
def diffParts (orig_words new_words : List (List Char)) : List (List Char) :=
  ((get_opcodes orig_words new_words).map (renderOp orig_words new_words)).flatten

def divOpen : List Char :=
  "<div style=\x27line-height:1.6;font-family: -apple-system, BlinkMacSystemFont, \"Segoe UI\", Roboto, \"Helvetica Neue\", Arial; padding:8px;\x27>".data

def divClose : List Char := "</div>".data

/-- `make_colored_unified_html(orig_text, new_text)` from `app.py`. -/
def make_colored_unified_html (orig_text new_text : List Char) : List Char :=
  let orig_words := pySplit orig_text
  let new_words := pySplit new_text
  divOpen ++ joinWords (diffParts orig_words new_words) ++ divClose

/-!
## Lemmas: deduplication, splitting, stripping
-/

theorem mem_dedupAux {seen l : List (List Char)} {a : List Char}
    (h : a ∈ dedupAux seen l) : a ∈ l ∧ seen.contains a = false := by
  induction l generalizing seen with
  | nil => simp [dedupAux] at h
  | cons b t ih =>
    by_cases hb : seen.contains b = true
    · rw [dedupAux, if_pos hb] at h
      exact ⟨List.mem_cons_of_mem _ (ih h).1, (ih h).2⟩
    · rw [dedupAux, if_neg hb] at h
      rcases List.mem_cons.mp h with rfl | h'
      · exact ⟨List.mem_cons_self _ _, by simpa using hb⟩
      · have := ih h'
        refine ⟨List.mem_cons_of_mem _ this.1, ?_⟩
        have h2 := this.2
        simp [List.contains_cons] at h2 ⊢
        exact h2.2

theorem mem_of_mem_pyDedup {l : List (List Char)} {a : List Char}
    (h : a ∈ pyDedup l) : a ∈ l :=
  (mem_dedupAux h).1

theorem dedupAux_length {seen : List (List Char)} (l : List (List Char)) :
    (dedupAux seen l).length ≤ l.length := by
  induction l generalizing seen with
  | nil => simp [dedupAux]
  | cons b t ih =>
    by_cases hb : seen.contains b = true
    · rw [dedupAux, if_pos hb]
      exact Nat.le_succ_of_le (ih)
    · rw [dedupAux, if_neg hb]
      simpa using Nat.succ_le_succ (ih)

theorem dedupAux_nodup (seen : List (List Char)) (l : List (List Char)) :
    (dedupAux seen l).Nodup := by
  induction l generalizing seen with
  | nil => simp [dedupAux]
  | cons b t ih =>
    by_cases hb : seen.contains b = true
    · rw [dedupAux, if_pos hb]; exact ih seen
    · rw [dedupAux, if_neg hb]
      refine List.nodup_cons.mpr ⟨?_, ih (b :: seen)⟩
      intro hmem
      have := (mem_dedupAux hmem).2
      simp [List.contains_cons] at this

theorem pyDedup_nodup (l : List (List Char)) : (pyDedup l).Nodup :=
  dedupAux_nodup [] l

theorem pyDedup_length (l : List (List Char)) : (pyDedup l).length ≤ l.length :=
  dedupAux_length l

theorem foldr_pySplitAux_spaces {t : List Char} (h : ∀ c ∈ t, isPySpace c = true) :
    t.foldr pySplitAux ([], []) = ([], []) := by
  induction t with
  | nil => rfl
  | cons c t ih =>
    have hc : isPySpace c = true := h c (List.mem_cons_self _ _)
    have ht : t.foldr pySplitAux ([], []) = ([], []) :=
      ih (fun x hx => h x (List.mem_cons_of_mem _ hx))
    simp [pySplitAux, ht, hc]

theorem pySplit_append_spaces {t : List Char} (xs : List Char)
    (h : ∀ c ∈ t, isPySpace c = true) : pySplit (xs ++ t) = pySplit xs := by
  unfold pySplit
  rw [List.foldr_append, foldr_pySplitAux_spaces h]

theorem pySplit_cons_space {c : Char} (h : isPySpace c = true) (cs : List Char) :
    pySplit (c :: cs) = pySplit cs := by
  unfold pySplit
  simp only [List.foldr_cons, pySplitAux, h, if_true]

theorem pySplit_dropWhile (cs : List Char) :
    pySplit (cs.dropWhile isPySpace) = pySplit cs := by
  induction cs with
  | nil => rfl
  | cons c t ih =>
    by_cases hc : isPySpace c = true
    · rw [List.dropWhile_cons_of_pos hc, ih, pySplit_cons_space hc]
    · rw [List.dropWhile_cons_of_neg hc]

theorem pyStrip_decomp (cs : List Char) :
    ∃ t, cs.dropWhile isPySpace = pyStrip cs ++ t ∧ ∀ c ∈ t, isPySpace c = true := by
  refine ⟨((cs.dropWhile isPySpace).reverse.takeWhile isPySpace).reverse, ?_, ?_⟩
  · unfold pyStrip
    rw [← List.reverse_append, List.takeWhile_append_dropWhile, List.reverse_reverse]
  · intro c hc
    rw [List.mem_reverse] at hc
    exact List.mem_takeWhile_imp hc

theorem pySplit_pyStrip (cs : List Char) : pySplit (pyStrip cs) = pySplit cs := by
  obtain ⟨t, hdec, ht⟩ := pyStrip_decomp cs
  rw [← pySplit_dropWhile cs, hdec, pySplit_append_spaces _ ht]

theorem pyStrip_ne_nil {cs : List Char} (h : pySplit cs ≠ []) : pyStrip cs ≠ [] := by
  intro hnil
  apply h
  rw [← pySplit_pyStrip, hnil]
  rfl

/-!
## Lemmas: the stable descending sort
-/

theorem insertDesc_perm (x : List Char × Nat) (l : List (List Char × Nat)) :
    List.Perm (insertDesc x l) (x :: l) := by
  induction l with
  | nil => rfl
  | cons y t ih =>
    by_cases h : keyGe x y
    · rw [insertDesc, if_pos h]
    · rw [insertDesc, if_neg h]
      exact (ih.cons y).trans (List.Perm.swap x y t)

theorem sortDesc_perm (l : List (List Char × Nat)) : List.Perm (sortDesc l) l := by
  induction l with
  | nil => rfl
  | cons x t ih => exact (insertDesc_perm x (sortDesc t)).trans (ih.cons x)

theorem keyGe_total (x y : List Char × Nat) : keyGe x y ∨ keyGe y x := by
  unfold keyGe
  omega

theorem keyGe_trans {x y z : List Char × Nat} (h1 : keyGe x y) (h2 : keyGe y z) :
    keyGe x z := by
  unfold keyGe at h1 h2 ⊢
  omega

theorem keyGe_of_eq {x y : List Char × Nat} (h : phraseKey x = phraseKey y) :
    keyGe x y := by
  unfold keyGe
  rw [h]
  omega

theorem insertDesc_pairwise {x : List Char × Nat} {l : List (List Char × Nat)}
    (h : l.Pairwise keyGe) : (insertDesc x l).Pairwise keyGe := by
  induction l with
  | nil => simp [insertDesc]
  | cons y t ih =>
    rcases List.pairwise_cons.mp h with ⟨hy, ht⟩
    by_cases hxy : keyGe x y
    · rw [insertDesc, if_pos hxy]
      refine List.pairwise_cons.mpr ⟨?_, h⟩
      intro z hz
      rcases List.mem_cons.mp hz with rfl | hz'
      · exact hxy
      · exact keyGe_trans hxy (hy z hz')
    · rw [insertDesc, if_neg hxy]
      have hyx : keyGe y x := (keyGe_total x y).resolve_left hxy
      refine List.pairwise_cons.mpr ⟨?_, ih ht⟩
      intro z hz
      have := (insertDesc_perm x t).mem_iff.mp hz
      rcases List.mem_cons.mp this with rfl | hz'
      · exact hyx
      · exact hy z hz'

theorem sortDesc_pairwise (l : List (List Char × Nat)) :
    (sortDesc l).Pairwise keyGe := by
  induction l with
  | nil => simp [sortDesc]
  | cons x t ih => exact insertDesc_pairwise ih

theorem sublist_insertDesc (x : List Char × Nat) (l : List (List Char × Nat)) :
    List.Sublist l (insertDesc x l) := by
  induction l with
  | nil => simp [insertDesc]
  | cons y t ih =>
    by_cases h : keyGe x y
    · rw [insertDesc, if_pos h]
      exact List.sublist_cons_self x (y :: t)
    · rw [insertDesc, if_neg h]
      exact List.Sublist.cons₂ y ih

theorem pair_sublist_insertDesc {x y : List Char × Nat} {l : List (List Char × Nat)}
    (hsort : l.Pairwise keyGe) (hy : y ∈ l) (hxy : keyGe x y) :
    List.Sublist [x, y] (insertDesc x l) := by
  induction l with
  | nil => cases hy
  | cons z t ih =>
    rcases List.pairwise_cons.mp hsort with ⟨hz, ht⟩
    by_cases h : keyGe x z
    · rw [insertDesc, if_pos h]
      exact List.Sublist.cons₂ x (List.singleton_sublist.mpr hy)
    · rw [insertDesc, if_neg h]
      rcases List.mem_cons.mp hy with rfl | hy'
      · exact absurd hxy h
      · exact List.Sublist.cons z (ih ht hy')

theorem sortDesc_stable {x y : List Char × Nat} {l : List (List Char × Nat)}
    (hkey : phraseKey x = phraseKey y) (hsub : List.Sublist [x, y] l) :
    List.Sublist [x, y] (sortDesc l) := by
  induction l with
  | nil => cases hsub
  | cons a t ih =>
    cases hsub with
    | cons _ hsub' =>
      exact (ih hsub').trans (sublist_insertDesc a (sortDesc t))
    | cons₂ _ hsub' =>
      have hy : y ∈ sortDesc t :=
        (sortDesc_perm t).mem_iff.mpr (List.singleton_sublist.mp hsub')
      exact pair_sublist_insertDesc (sortDesc_pairwise t) hy (keyGe_of_eq hkey)

/-!
## Lemmas: what survives the extraction pipeline
-/

theorem mem_extract_strip {text : List Char} {mc : Nat} {p : List Char}
    (h : p ∈ extract_jargon_keywords text mc) :
    ∃ q, phraseFilter q = true ∧ p = pyStrip q := by
  unfold extract_jargon_keywords at h
  by_cases ht : text = []
  · rw [if_pos ht] at h
    cases h
  · rw [if_neg ht] at h
    have h1 := mem_of_mem_pyDedup h
    obtain ⟨pr, hpr, hfst⟩ := List.mem_map.mp h1
    have h2 : pr ∈ sortDesc (counterItems (filteredPhrases (pyFindall (pyLower text)))) :=
      List.mem_of_mem_take hpr
    have h3 : pr ∈ counterItems (filteredPhrases (pyFindall (pyLower text))) :=
      (sortDesc_perm _).mem_iff.mp h2
    obtain ⟨s, hs, hspr⟩ := List.mem_map.mp h3
    have h4 : s ∈ filteredPhrases (pyFindall (pyLower text)) := mem_of_mem_pyDedup hs
    obtain ⟨q, hq, hqs⟩ := List.mem_map.mp h4
    refine ⟨q, (List.mem_filter.mp hq).2, ?_⟩
    rw [← hfst, ← hspr, hqs]

theorem phraseFilter_props {q : List Char} (h : phraseFilter q = true) :
    (pySplit q).all (fun w => STOPWORDS.contains w) = false ∧
    (pySplit q).length ≤ 3 ∧ pyIsDigit q = false := by
  unfold phraseFilter at h
  simp only [Bool.and_eq_true, Bool.not_eq_true', decide_eq_true_eq] at h
  exact ⟨h.1.1, h.1.2, h.2⟩

theorem mem_extract_props {text : List Char} {mc : Nat} {p : List Char}
    (h : p ∈ extract_jargon_keywords text mc) :
    (pySplit p).length ≤ 3 ∧
    (pySplit p).all (fun w => STOPWORDS.contains w) = false ∧ p ≠ [] := by
  obtain ⟨q, hq, rfl⟩ := mem_extract_strip h
  obtain ⟨hstop, hlen, _⟩ := phraseFilter_props hq
  rw [pySplit_pyStrip]
  refine ⟨hlen, hstop, ?_⟩
  have hne : pySplit q ≠ [] := by
    intro hnil
    rw [hnil] at hstop
    simp [List.all_nil] at hstop
  exact pyStrip_ne_nil hne

theorem extract_length_le (text : List Char) (mc : Nat) :
    (extract_jargon_keywords text mc).length ≤ mc := by
  unfold extract_jargon_keywords
  by_cases ht : text = []
  · rw [if_pos ht]
    exact Nat.zero_le mc
  · rw [if_neg ht]
    calc (pyDedup ((sortDesc (counterItems (filteredPhrases (pyFindall (pyLower text))))).take mc |>.map Prod.fst)).length
        ≤ ((sortDesc (counterItems (filteredPhrases (pyFindall (pyLower text))))).take mc |>.map Prod.fst).length := pyDedup_length _
      _ ≤ mc := by
          rw [List.length_map, List.length_take]
          exact Nat.min_le_left _ _

theorem extract_nodup (text : List Char) (mc : Nat) :
    (extract_jargon_keywords text mc).Nodup := by
  unfold extract_jargon_keywords
  by_cases ht : text = []
  · rw [if_pos ht]
    exact List.nodup_nil
  · rw [if_neg ht]
    exact pyDedup_nodup _

/-!
## Claims C5, C7, C2
-/

/-- C5: for every input text and every `max_count`, `extract_jargon_keywords`
returns at most `max_count` entries, no duplicates, and every returned phrase
has at most 3 words and is not made up entirely of stopwords. -/
theorem c5_extract_wellformed (text : List Char) (mc : Nat) :
    (extract_jargon_keywords text mc).length ≤ mc ∧
    (extract_jargon_keywords text mc).Nodup ∧
    ∀ p ∈ extract_jargon_keywords text mc,
      (pySplit p).length ≤ 3 ∧
      (pySplit p).all (fun w => STOPWORDS.contains w) = false := by
  refine ⟨extract_length_le text mc, extract_nodup text mc, ?_⟩
  intro p hp
  exact ⟨(mem_extract_props hp).1, (mem_extract_props hp).2.1⟩

/-- Witness for C5 at a concrete text, `max_count`, and member phrase. -/
theorem c5_extract_wellformed_witness :
    (("bbb ccc".data) ∈ extract_jargon_keywords ("aaa, bbb ccc".data) 5) ∧
    (pySplit ("bbb ccc".data)).length ≤ 3 ∧
    (pySplit ("bbb ccc".data)).all (fun w => STOPWORDS.contains w) = false :=
  ⟨by decide, (c5_extract_wellformed ("aaa, bbb ccc".data) 5).2.2 _ (by decide)⟩

/-- C7: empty text is not an error: `extract_jargon_keywords("", N)` is `[]`
for every `N`, and empty résumé text yields zero annotated lines, the output
being just the blank line, the section header, and suggestions taken from the
full keyword list of the job text. -/
theorem c7_empty_inputs (n : Nat) (job_text : List Char) :
    extract_jargon_keywords [] n = [] ∧
    tailor_resume [] job_text =
      List.intercalate ("\n".data)
        ([[], "--- Suggested Additions ---".data] ++
         ((extract_jargon_keywords job_text 40).take 10).map suggestionLine) := by
  constructor
  · rfl
  · unfold tailor_resume
    have hmiss : missingKeywords (extract_jargon_keywords job_text 40) [] =
        extract_jargon_keywords job_text 40 := by
      unfold missingKeywords
      apply List.filter_eq_self.mpr
      intro k hk
      have hne := (mem_extract_props hk).2.2
      have hlr : lowerResume ([] : List Char) = [] := rfl
      rw [hlr]
      simp [pyInStr, hne]
    have hlines : resumeLines ([] : List Char) = [] := rfl
    rw [hlines]
    simp [hmiss]

/-- The concrete job text of the spec's extraction scenario. -/
def scenarioJobText : List Char :=
  "Looking for a Data Engineer with experience in cloud infrastructure and data infrastructure.".data

/-- C2 counterexample: on the scenario text with `max_count = 5` the code
returns the greedy chunk "data engineer with" (which contains the stopword
"with"), and "cloud infrastructure" is not among the results at all (only
"cloud infrastructure and" is), contradicting the claimed output shape. -/
theorem c2_scenario_counterexample :
    (("data engineer with".data) ∈ extract_jargon_keywords scenarioJobText 5) ∧
    (("with".data) ∈ pySplit ("data engineer with".data)) ∧
    (("cloud infrastructure".data) ∉ extract_jargon_keywords scenarioJobText 5) ∧
    (("and".data) ∈ pySplit ("cloud infrastructure and".data)) ∧
    (("cloud infrastructure and".data) ∈ extract_jargon_keywords scenarioJobText 5) := by
  decide

/-- C2 amended: the exact output on the scenario text: the greedy non-
overlapping chunks ranked by (word count, frequency); "data infrastructure"
does rank above "experience", but "cloud infrastructure" appears only inside
the chunk "cloud infrastructure and", and chunks may embed stopwords such as
"with" and "and" in non-initial positions. -/
theorem c2_scenario_amended :
    extract_jargon_keywords scenarioJobText 5 =
      [("data engineer with".data), ("cloud infrastructure and".data),
       ("looking for".data), ("data infrastructure".data), ("experience".data)] ∧
    (extract_jargon_keywords scenarioJobText 5).indexOf ("data infrastructure".data) <
      (extract_jargon_keywords scenarioJobText 5).indexOf ("experience".data) := by
  decide

/-!
## Claim C8: the ranking stage
-/

theorem counterItems_map_fst (l : List (List Char)) :
    (counterItems l).map Prod.fst = pyDedup l := by
  unfold counterItems
  rw [List.map_map]
  exact List.map_id'' (fun x => rfl) _

/-- C8: the ranker sorts the counted candidates descending by the compound
key `(word count, frequency)` (`keyGe`-pairwise), keeps them as a
permutation of `Counter(filtered).items()` — whose keys are in first-seen
order of the candidate stream — and two items with equal compound key keep
their first-seen relative order (stability). -/
theorem c8_ranking_stable (text : List Char) :
    (sortDesc (counterItems (filteredPhrases (pyFindall (pyLower text))))).Pairwise keyGe ∧
    List.Perm (sortDesc (counterItems (filteredPhrases (pyFindall (pyLower text)))))
      (counterItems (filteredPhrases (pyFindall (pyLower text)))) ∧
    (counterItems (filteredPhrases (pyFindall (pyLower text)))).map Prod.fst =
      pyDedup (filteredPhrases (pyFindall (pyLower text))) ∧
    ∀ x y, phraseKey x = phraseKey y →
      List.Sublist [x, y] (counterItems (filteredPhrases (pyFindall (pyLower text)))) →
      List.Sublist [x, y]
        (sortDesc (counterItems (filteredPhrases (pyFindall (pyLower text))))) := by
  refine ⟨sortDesc_pairwise _, sortDesc_perm _, counterItems_map_fst _, ?_⟩
  intro x y hkey hsub
  exact sortDesc_stable hkey hsub

/-- Witness for C8 at a concrete text with two equal-key items. -/
theorem c8_ranking_stable_witness :
    List.Sublist [(("aaa".data : List Char), 1), (("bbb".data : List Char), 1)]
      (sortDesc (counterItems (filteredPhrases (pyFindall (pyLower ("aaa, bbb".data)))))) :=
  (c8_ranking_stable ("aaa, bbb".data)).2.2.2 _ _ (by decide) (by decide)

/-!
## Claim C1: greedy chunks, not sliding windows
-/

theorem alpha_not_space {c : Char} (h : c.isAlpha = true) : isPySpace c = false := by
  cases hsp : isPySpace c
  · rfl
  · exfalso
    unfold isPySpace at hsp
    simp only [Bool.or_eq_true, beq_iff_eq] at hsp
    rcases hsp with ((((h1 | h1) | h1) | h1) | h1) | h1 <;> subst h1 <;>
      exact absurd h (by decide)

theorem takeWhile_append_all {p : Char → Bool} {xs : List Char} (ys : List Char)
    (hx : ∀ x ∈ xs, p x = true) :
    (xs ++ ys).takeWhile p = xs ++ ys.takeWhile p := by
  induction xs with
  | nil => rfl
  | cons a t ih =>
    have ha : p a = true := hx a (List.mem_cons_self _ _)
    simp only [List.cons_append, List.takeWhile_cons, ha, if_true,
      ih (fun x hx' => hx x (List.mem_cons_of_mem _ hx'))]

theorem dropWhile_append_all {p : Char → Bool} {xs : List Char} (ys : List Char)
    (hx : ∀ x ∈ xs, p x = true) :
    (xs ++ ys).dropWhile p = ys.dropWhile p := by
  induction xs with
  | nil => rfl
  | cons a t ih =>
    have ha : p a = true := hx a (List.mem_cons_self _ _)
    simp only [List.cons_append, List.dropWhile_cons, ha, if_true,
      ih (fun x hx' => hx x (List.mem_cons_of_mem _ hx'))]

theorem head_takeWhile_nil {p : Char → Bool} {ys : List Char}
    (hy : ∀ c, ys.head? = some c → p c = false) : ys.takeWhile p = [] := by
  cases ys with
  | nil => rfl
  | cons c t =>
    have : p c = false := hy c rfl
    simp [List.takeWhile_cons, this]

theorem head_dropWhile_self {p : Char → Bool} {ys : List Char}
    (hy : ∀ c, ys.head? = some c → p c = false) : ys.dropWhile p = ys := by
  cases ys with
  | nil => rfl
  | cons c t =>
    have : p c = false := hy c rfl
    simp [List.dropWhile_cons, this]

theorem span_exact {p : Char → Bool} {xs ys : List Char}
    (hx : ∀ x ∈ xs, p x = true) (hy : ∀ c, ys.head? = some c → p c = false) :
    (xs ++ ys).span p = (xs, ys) := by
  rw [List.span_eq_take_drop, takeWhile_append_all ys hx, dropWhile_append_all ys hx,
    head_takeWhile_nil hy, head_dropWhile_self hy, List.append_nil]

theorem findallGo_nil (fuel : Nat) (b : Bool) : findallGo fuel b [] = [] := by
  cases fuel <;> rfl

/-- A word of the chunk theorem: at least three characters, all ASCII
letters. -/
def chunkWord (w : List Char) : Prop := 3 ≤ w.length ∧ ∀ c ∈ w, c.isAlpha = true

/-- `" ".join` written by explicit recursion (one separating space between
consecutive words). -/
def joinSp : List (List Char) → List Char
  | [] => []
  | [w] => w
  | w :: ws => w ++ ' ' :: joinSp ws

/-- The greedy left-to-right grouping of the token sequence into
non-overlapping blocks of (up to) three consecutive tokens — what the regex
stage actually produces on a cleanly space-separated token sequence. -/
def chunksOf3 : List (List Char) → List (List Char)
  | [] => []
  | [w] => [w]
  | [w1, w2] => [w1 ++ ' ' :: w2]
  | w1 :: w2 :: w3 :: rest => (w1 ++ ' ' :: (w2 ++ ' ' :: w3)) :: chunksOf3 rest

theorem matchUnit_exact {w ys : List Char} (hw : chunkWord w)
    (hy : ∀ c, ys.head? = some c → c.isAlpha = false) :
    matchUnit (' ' :: (w ++ ys)) = some (' ' :: w, ys) := by
  have hsp : (((' ' :: []) : List Char) ++ (w ++ ys)).span isPySpace = (' ' :: [], w ++ ys) := by
    refine span_exact (fun x hx => ?_) (fun c hc => ?_)
    · rcases List.mem_singleton.mp hx with rfl
      rfl
    · rcases w with _ | ⟨a, ta⟩
      · exact absurd hw.1 (by simp)
      · rcases Option.some.inj hc with rfl
        exact alpha_not_space (hw.2 a (List.mem_cons_self _ _))
  have hal : ((w ++ ys).span Char.isAlpha) = (w, ys) :=
    span_exact hw.2 hy
  unfold matchUnit
  simp only [List.singleton_append] at hsp
  rw [hsp]
  simp only [reduceCtorEq, if_false]
  rw [hal]
  have h3 := hw.1
  have : ¬ (w.length < 3) := by omega
  simp [this]

theorem tryMatch_last {w : List Char} : tryMatch w [] = some (w, []) := rfl

theorem findallGo_start {w ys m r : List Char} {fuel : Nat} (hw : chunkWord w)
    (hy : ∀ c, ys.head? = some c → c.isAlpha = false)
    (htm : tryMatch w ys = some (m, r)) :
    findallGo (Nat.succ fuel) false (w ++ ys) = m :: findallGo fuel true r := by
  obtain ⟨a, ta, rfl⟩ : ∃ a ta, w = a :: ta := by
    rcases w with _ | ⟨a, ta⟩
    · exact absurd hw.1 (by simp)
    · exact ⟨a, ta, rfl⟩
  have ha : a.isAlpha = true := hw.2 a (List.mem_cons_self _ _)
  have hspan : (a :: (ta ++ ys)).span Char.isAlpha = (a :: ta, ys) := by
    rw [← List.cons_append]
    exact span_exact hw.2 hy
  have hlen : ¬ ((a :: ta).length < 3) := by
    have := hw.1
    omega
  rw [List.cons_append, findallGo]
  simp only [ha, Bool.not_true, Bool.or_false, Bool.false_or, hspan, if_neg hlen, htm]
  rfl

theorem tryMatch_three {w1 w2 w3 ts : List Char} (hw2 : chunkWord w2) (hw3 : chunkWord w3)
    (hts : ∀ c, ts.head? = some c → c.isAlpha = false) (hb : bAfter ts = true) :
    tryMatch w1 (' ' :: (w2 ++ (' ' :: (w3 ++ ts)))) =
      some (w1 ++ (' ' :: w2) ++ (' ' :: w3), ts) := by
  have hmu1 : matchUnit (' ' :: (w2 ++ (' ' :: (w3 ++ ts)))) =
      some (' ' :: w2, ' ' :: (w3 ++ ts)) :=
    matchUnit_exact hw2 (fun c hc => by cases hc; decide)
  have hmu2 : matchUnit (' ' :: (w3 ++ ts)) = some (' ' :: w3, ts) :=
    matchUnit_exact hw3 hts
  simp [tryMatch, hmu1, hmu2, hb]

theorem findallGo_chunks (ws : List (List Char)) (h : ∀ w ∈ ws, chunkWord w) :
    ∀ fuel, (joinSp ws).length < fuel →
    findallGo fuel false (joinSp ws) = chunksOf3 ws := by
  induction ws using chunksOf3.induct with
  | case1 =>
    intro fuel _
    exact findallGo_nil fuel false
  | case2 w =>
    intro fuel hf
    have hw : chunkWord w := h w (List.mem_singleton.mpr rfl)
    obtain ⟨f0, rfl⟩ : ∃ f0, fuel = Nat.succ f0 := by
      cases fuel
      · exact absurd hf (by omega)
      · exact ⟨_, rfl⟩
    have hjw : joinSp [w] = w ++ [] := by simp [joinSp]
    rw [hjw, findallGo_start hw (fun c hc => by cases hc) tryMatch_last, findallGo_nil]
    rfl
  | case3 w1 w2 =>
    intro fuel hf
    have hw1 : chunkWord w1 := h w1 (by simp)
    have hw2 : chunkWord w2 := h w2 (by simp)
    obtain ⟨f0, rfl⟩ : ∃ f0, fuel = Nat.succ f0 := by
      cases fuel
      · exact absurd hf (by omega)
      · exact ⟨_, rfl⟩
    have hmu : matchUnit (' ' :: (w2 ++ [])) = some (' ' :: w2, []) :=
      matchUnit_exact hw2 (fun c hc => by cases hc)
    rw [List.append_nil] at hmu
    have htm : tryMatch w1 (' ' :: w2) = some (w1 ++ (' ' :: w2), []) := by
      simp [tryMatch, hmu]
      rfl
    have hj : joinSp [w1, w2] = w1 ++ (' ' :: w2) := rfl
    rw [hj, findallGo_start hw1 (fun c hc => by cases hc; decide) htm, findallGo_nil]
    rfl
  | case4 w1 w2 w3 rest ih =>
    intro fuel hf
    have hw1 : chunkWord w1 := h w1 (by simp)
    have hw2 : chunkWord w2 := h w2 (by simp)
    have hw3 : chunkWord w3 := h w3 (by simp)
    have hl1 := hw1.1
    obtain ⟨f0, rfl⟩ : ∃ f0, fuel = Nat.succ f0 := by
      cases fuel
      · exact absurd hf (by omega)
      · exact ⟨_, rfl⟩
    have hhead : (w1 ++ (' ' :: w2) ++ (' ' :: w3)) = w1 ++ ' ' :: (w2 ++ ' ' :: w3) := by
      simp [List.append_assoc]
    cases rest with
    | nil =>
      have hj : joinSp [w1, w2, w3] = w1 ++ (' ' :: (w2 ++ (' ' :: (w3 ++ [])))) := by
        simp [joinSp]
      have htm := @tryMatch_three w1 w2 w3 [] hw2 hw3
        (fun c hc => by cases hc) rfl
      rw [hj, findallGo_start hw1 (fun c hc => by cases hc; decide) htm, findallGo_nil,
        hhead]
      rfl
    | cons r rs =>
      have hj : joinSp (w1 :: w2 :: w3 :: r :: rs) =
          w1 ++ (' ' :: (w2 ++ (' ' :: (w3 ++ (' ' :: joinSp (r :: rs)))))) := rfl
      have htm := @tryMatch_three w1 w2 w3 (' ' :: joinSp (r :: rs)) hw2 hw3
        (fun c hc => by cases hc; decide) rfl
      rw [hj, findallGo_start hw1 (fun c hc => by cases hc; decide) htm, hhead]
      have hchunks : chunksOf3 (w1 :: w2 :: w3 :: r :: rs) =
          (w1 ++ ' ' :: (w2 ++ ' ' :: w3)) :: chunksOf3 (r :: rs) := rfl
      rw [hchunks]
      congr 1
      have hlen2 : (joinSp (r :: rs)).length + 1 < f0 := by
        rw [hj] at hf
        simp only [List.length_append, List.length_cons] at hf
        omega
      obtain ⟨f1, rfl⟩ : ∃ f1, f0 = Nat.succ f1 := by
        cases f0
        · exact absurd hlen2 (by omega)
        · exact ⟨_, rfl⟩
      rw [findallGo]
      simp only [Bool.true_or, if_true]
      have hwc : isWordChar ' ' = false := by decide
      rw [hwc]
      refine ih (fun w hw => h w ?_) f1 (by omega)
      simp only [List.mem_cons] at hw ⊢
      tauto

instance chunkWordDec (w : List Char) : Decidable (chunkWord w) :=
  inferInstanceAs (Decidable (_ ∧ _))

/-- Maximal runs of ASCII letters (non-letters act purely as separators). -/
def alphaRuns (cs : List Char) : List (List Char) :=
  let r := cs.foldr
    (fun c acc => if c.isAlpha then (c :: acc.1, acc.2)
                  else ([], if acc.1 = [] then acc.2 else acc.1 :: acc.2)) ([], [])
  if r.1 = [] then r.2 else r.1 :: r.2

/-- Modelled from the spec (§4.1): the token sequence — lowercase alphabetic
runs of length ≥ 3.  The tokenizer is not a separate function in `app.py`
(it lives inside the `findall` regex), so it is reconstructed from the
spec's words for the refinement comparison of C1. -/
def specTokens (text : List Char) : List (List Char) :=
  (alphaRuns (pyLower text)).filter (fun w => decide (3 ≤ w.length))

/-- Modelled from the spec (§4.2): every contiguous window of 1, 2, or 3
consecutive tokens (sliding, overlapping), each window joined with single
spaces — the candidate-phrase set the spec asserts. -/
def specSlidingPhrases (text : List Char) : List (List Char) :=
  ((specTokens text).tails.map (fun t =>
    (([1, 2, 3] : List Nat).filter (fun n => decide (n ≤ t.length))).map
      (fun n => joinWords (t.take n)))).flatten

/-- C1 counterexample: on `"alpha beta"` the sliding-window reading demands
the window "beta" (and "alpha") as candidate phrases, but the regex stage
produces only the single greedy chunk "alpha beta" — "beta" is not a
candidate phrase. -/
theorem c1_sliding_window_counterexample :
    (("beta".data) ∈ specSlidingPhrases ("alpha beta".data)) ∧
    pyFindall (pyLower ("alpha beta".data)) = [("alpha beta".data)] ∧
    (("beta".data) ∉ pyFindall (pyLower ("alpha beta".data))) := by
  decide

/-- C1 amended: on a space-separated sequence of alphabetic tokens (each of
length ≥ 3) the phrase stage produces the greedy left-to-right grouping into
non-overlapping blocks of up to three consecutive tokens (`chunksOf3`) —
sliding windows inside or across those blocks are never generated. -/
theorem c1_greedy_chunking (ws : List (List Char)) (h : ∀ w ∈ ws, chunkWord w) :
    pyFindall (joinSp ws) = chunksOf3 ws :=
  findallGo_chunks ws h _ (Nat.lt_succ_self _)

/-- Witness for C1's amended claim on a concrete four-token sequence. -/
theorem c1_greedy_chunking_witness :
    pyFindall (joinSp [("alpha".data), ("beta".data), ("gamma".data), ("delta".data)]) =
      chunksOf3 [("alpha".data), ("beta".data), ("gamma".data), ("delta".data)] :=
  c1_greedy_chunking _ (by decide)

/-!
## Claims C6 and C10: the résumé annotator
-/

theorem beginsWith_append_self (xs ys : List Char) : beginsWith xs (xs ++ ys) = true := by
  induction xs with
  | nil => rfl
  | cons c t ih => simp [beginsWith, ih]

/-- C6: suggestions are one fixed-template bullet per missing phrase, at most
10, taken in keyword-list order (`missingKeywords` is a subsequence of the
keyword list); every missing keyword is absent from the lowercased
space-joined résumé text, and every keyword in a line's annotation occurs in
that line (case-insensitively); `tailor_resume` is assembled from exactly
these pieces. -/
theorem c6_annotation_soundness (resume_text job_text : List Char) :
    (((missingKeywords (extract_jargon_keywords job_text 40) resume_text).take 10).map
        suggestionLine).length ≤ 10 ∧
    List.Sublist (missingKeywords (extract_jargon_keywords job_text 40) resume_text)
      (extract_jargon_keywords job_text 40) ∧
    (∀ k ∈ missingKeywords (extract_jargon_keywords job_text 40) resume_text,
      pyInStr k (lowerResume resume_text) = false) ∧
    (∀ line ∈ resumeLines resume_text,
      ∀ k ∈ matchedKeywords (extract_jargon_keywords job_text 40) line,
        pyInStr k (pyLower line) = true) ∧
    tailor_resume resume_text job_text =
      List.intercalate ("\n".data)
        ((resumeLines resume_text).map
            (tailoredLine (extract_jargon_keywords job_text 40)) ++
          [[], "--- Suggested Additions ---".data] ++
          ((missingKeywords (extract_jargon_keywords job_text 40) resume_text).take 10).map
            suggestionLine) := by
  refine ⟨?_, ?_, ?_, ?_, rfl⟩
  · rw [List.length_map, List.length_take]
    exact Nat.min_le_left _ _
  · exact List.filter_sublist _
  · intro k hk
    have := (List.mem_filter.mp hk).2
    simpa using this
  · intro line _ k hk
    exact (List.mem_filter.mp hk).2

/-- Witness for C6 at a concrete résumé and job text: "kubernetes" is
missing, "python" is matched on the only line. -/
theorem c6_annotation_soundness_witness :
    pyInStr ("kubernetes".data) (lowerResume ("I use Python daily".data)) = false ∧
    pyInStr ("python".data) (pyLower ("I use Python daily".data)) = true :=
  ⟨(c6_annotation_soundness ("I use Python daily".data) ("python, kubernetes".data)).2.2.1
      _ (by decide),
   (c6_annotation_soundness ("I use Python daily".data) ("python, kubernetes".data)).2.2.2.1
      _ (by decide) _ (by decide)⟩

/-- C10: tailoring emits exactly one output line per non-empty trimmed résumé
line; each is the original line prefixed with "- " (with the keyword
parenthetical appended when some keyword matched), so no output line
reproduces a résumé line without the bullet prefix. -/
theorem c10_bullet_lines (resume_text job_text : List Char) :
    ((resumeLines resume_text).map
        (tailoredLine (extract_jargon_keywords job_text 40))).length =
      (resumeLines resume_text).length ∧
    ∀ t ∈ (resumeLines resume_text).map
        (tailoredLine (extract_jargon_keywords job_text 40)),
      ∃ l ∈ resumeLines resume_text,
        beginsWith ("- ".data) t = true ∧
        (t = "- ".data ++ l ∨
          t = "- ".data ++ l ++ "  (keywords: ".data ++
            List.intercalate (", ".data)
              (matchedKeywords (extract_jargon_keywords job_text 40) l) ++ ")".data) := by
  refine ⟨List.length_map _ _, ?_⟩
  intro t ht
  obtain ⟨l, hl, rfl⟩ := List.mem_map.mp ht
  refine ⟨l, hl, ?_, ?_⟩
  · unfold tailoredLine
    by_cases hm : matchedKeywords (extract_jargon_keywords job_text 40) l = []
    · rw [if_pos hm]
      exact beginsWith_append_self _ _
    · rw [if_neg hm]
      have : ("- ".data) ++ (l ++ "  (keywords: ".data ++
          List.intercalate (", ".data)
            (matchedKeywords (extract_jargon_keywords job_text 40) l) ++ ")".data) =
          ("- ".data ++ l ++ "  (keywords: ".data ++
            List.intercalate (", ".data)
              (matchedKeywords (extract_jargon_keywords job_text 40) l) ++ ")".data) := by
        simp [List.append_assoc]
      rw [← this]
      exact beginsWith_append_self _ _
  · unfold tailoredLine
    by_cases hm : matchedKeywords (extract_jargon_keywords job_text 40) l = []
    · rw [if_pos hm]
      exact Or.inl rfl
    · rw [if_neg hm]
      exact Or.inr rfl

/-- Witness for C10 at a concrete résumé and job text. -/
theorem c10_bullet_lines_witness :
    ∃ l ∈ resumeLines ("Shipped python services".data),
      beginsWith ("- ".data)
        (tailoredLine (extract_jargon_keywords ("python, kubernetes".data) 40)
          ("Shipped python services".data)) = true ∧
      (tailoredLine (extract_jargon_keywords ("python, kubernetes".data) 40)
          ("Shipped python services".data) = "- ".data ++ l ∨
        tailoredLine (extract_jargon_keywords ("python, kubernetes".data) 40)
            ("Shipped python services".data) =
          "- ".data ++ l ++ "  (keywords: ".data ++
            List.intercalate (", ".data)
              (matchedKeywords (extract_jargon_keywords ("python, kubernetes".data) 40) l) ++
            ")".data) :=
  (c10_bullet_lines ("Shipped python services".data) ("python, kubernetes".data)).2
    _ (by decide)

/-!
## Claim C9: cover letter.  Substring and digit-length helpers.
-/

theorem pyInStr_nil_needle (hay : List Char) : pyInStr [] hay = true := by
  induction hay with
  | nil => rfl
  | cons d ds ih => simp [pyInStr, beginsWith]

theorem pyInStr_self_append (n y : List Char) : pyInStr n (n ++ y) = true := by
  cases n with
  | nil => exact pyInStr_nil_needle y
  | cons c t =>
    have hb : beginsWith (c :: t) (c :: (t ++ y)) = true := beginsWith_append_self (c :: t) y
    simp [pyInStr, hb]

theorem pyInStr_cons {n hay : List Char} (h : pyInStr n hay = true) (d : Char) :
    pyInStr n (d :: hay) = true := by
  simp [pyInStr, h]

theorem pyInStr_append_left (x : List Char) {n hay : List Char}
    (h : pyInStr n hay = true) : pyInStr n (x ++ hay) = true := by
  induction x with
  | nil => exact h
  | cons c t ih => exact pyInStr_cons ih c

theorem tdcLen1 {f n : Nat} (hf : 1 ≤ f) (h2 : n < 10) :
    (Nat.toDigitsCore 10 f n []).length = 1 := by
  obtain ⟨f0, rfl⟩ : ∃ f0, f = f0 + 1 := ⟨f - 1, by omega⟩
  have h0 : n / 10 = 0 := by omega
  simp [Nat.toDigitsCore, h0]

theorem tdcLen2 {f n : Nat} (hf : 2 ≤ f) (h1 : 10 ≤ n) (h2 : n < 100) :
    (Nat.toDigitsCore 10 f n []).length = 2 := by
  obtain ⟨f0, rfl⟩ : ∃ f0, f = f0 + 1 := ⟨f - 1, by omega⟩
  have h0 : ¬ (n / 10 = 0) := by omega
  rw [Nat.toDigitsCore]
  simp only [h0, if_false]
  rw [Nat.toDigitsCore_lens_eq]
  rw [tdcLen1 (by omega) (by omega)]

theorem tdcLen3 {f n : Nat} (hf : 3 ≤ f) (h1 : 100 ≤ n) (h2 : n < 1000) :
    (Nat.toDigitsCore 10 f n []).length = 3 := by
  obtain ⟨f0, rfl⟩ : ∃ f0, f = f0 + 1 := ⟨f - 1, by omega⟩
  have h0 : ¬ (n / 10 = 0) := by omega
  rw [Nat.toDigitsCore]
  simp only [h0, if_false]
  rw [Nat.toDigitsCore_lens_eq]
  rw [tdcLen2 (by omega) (by omega) (by omega)]

theorem tdcLen4 {f n : Nat} (hf : 4 ≤ f) (h1 : 1000 ≤ n) (h2 : n < 10000) :
    (Nat.toDigitsCore 10 f n []).length = 4 := by
  obtain ⟨f0, rfl⟩ : ∃ f0, f = f0 + 1 := ⟨f - 1, by omega⟩
  have h0 : ¬ (n / 10 = 0) := by omega
  rw [Nat.toDigitsCore]
  simp only [h0, if_false]
  rw [Nat.toDigitsCore_lens_eq]
  rw [tdcLen3 (by omega) (by omega) (by omega)]

theorem repr_data_len4 {y : Nat} (h1 : 1000 ≤ y) (h2 : y < 10000) :
    ((Nat.repr y).data).length = 4 := by
  show ((Nat.toDigits 10 y).asString.data).length = 4
  rw [show (Nat.toDigits 10 y).asString.data = Nat.toDigits 10 y from rfl]
  unfold Nat.toDigits
  exact tdcLen4 (by omega) h1 h2

theorem fmtDay_len {d : Nat} (h : d < 100) : (fmtDay d).length = 2 := by
  unfold fmtDay
  by_cases h10 : d < 10
  · rw [if_pos h10]
    have : ((Nat.repr d).data).length = 1 := by
      show ((Nat.toDigits 10 d).asString.data).length = 1
      rw [show (Nat.toDigits 10 d).asString.data = Nat.toDigits 10 d from rfl]
      unfold Nat.toDigits
      exact tdcLen1 (by omega) h10
    simp [this]
  · rw [if_neg h10]
    show ((Nat.toDigits 10 d).asString.data).length = 2
    rw [show (Nat.toDigits 10 d).asString.data = Nat.toDigits 10 d from rfl]
    unfold Nat.toDigits
    exact tdcLen2 (by omega) (by omega) h

theorem beginsWith_iff {n h : List Char} : beginsWith n h = true ↔ ∃ r, h = n ++ r := by
  induction n generalizing h with
  | nil =>
    simp [beginsWith]
  | cons c t ih =>
    cases h with
    | nil =>
      constructor
      · intro hb
        cases hb
      · rintro ⟨r, hr⟩
        cases hr
    | cons d ds =>
      simp only [beginsWith, Bool.and_eq_true, beq_iff_eq, ih]
      constructor
      · rintro ⟨rfl, r, rfl⟩
        exact ⟨r, rfl⟩
      · rintro ⟨r, heq⟩
        injection heq with h1 h2
        exact ⟨h1.symm, r, h2⟩

theorem pyInStr_iff {n hay : List Char} :
    pyInStr n hay = true ↔ ∃ x y, hay = x ++ (n ++ y) := by
  induction hay with
  | nil =>
    simp only [pyInStr, beq_iff_eq]
    constructor
    · rintro rfl
      exact ⟨[], [], rfl⟩
    · rintro ⟨x, y, heq⟩
      rcases List.append_eq_nil.mp heq.symm with ⟨rfl, h2⟩
      rcases List.append_eq_nil.mp h2 with ⟨rfl, rfl⟩
      rfl
  | cons d ds ih =>
    simp only [pyInStr, Bool.or_eq_true, ih, beginsWith_iff]
    constructor
    · rintro (⟨r, heq⟩ | ⟨x, y, rfl⟩)
      · exact ⟨[], r, by simpa using heq⟩
      · exact ⟨d :: x, y, rfl⟩
    · rintro ⟨x, y, heq⟩
      cases x with
      | nil => exact Or.inl ⟨y, by simpa using heq⟩
      | cons a t =>
        injection heq with h1 h2
        exact Or.inr ⟨t, y, h2⟩

theorem pyInStr_append_cases {n X Y : List Char} (h : pyInStr n (X ++ Y) = true) :
    pyInStr n X = true ∨ pyInStr n Y = true ∨
    ∃ a k, n = a ++ k ∧ a ≠ [] ∧ k ≠ [] ∧ (∃ x, X = x ++ a) ∧ (∃ y, Y = k ++ y) := by
  obtain ⟨x, y, heq⟩ := pyInStr_iff.mp h
  rcases List.append_eq_append_iff.mp heq with ⟨a', ha1, ha2⟩ | ⟨c', hc1, hc2⟩
  · exact Or.inr (Or.inl (by rw [ha2]; exact pyInStr_append_left a' (pyInStr_self_append n y)))
  · rcases List.append_eq_append_iff.mp hc2.symm with ⟨k, hk1, hk2⟩ | ⟨b', hb1, hb2⟩
    · rcases Decidable.em (c' = []) with rfl | hc'ne
      · refine Or.inr (Or.inl (pyInStr_iff.mpr ⟨[], y, ?_⟩))
        simp only [List.nil_append]
        rw [hk2, hk1]
        simp
      · rcases Decidable.em (k = []) with rfl | hkne
        · refine Or.inl (pyInStr_iff.mpr ⟨x, [], ?_⟩)
          rw [hc1, hk1, List.append_nil, List.append_nil]
        · exact Or.inr (Or.inr ⟨c', k, hk1, hc'ne, hkne, ⟨x, hc1⟩, ⟨y, hk2⟩⟩)
    · refine Or.inl (pyInStr_iff.mpr ⟨x, b', ?_⟩)
      rw [hc1, hb1]

/-- Splitting "None" into two non-empty pieces: the right piece is
"one", "ne", or "e". -/
theorem none_split_right {a k : List Char} (hsplit : ("None".data) = a ++ k)
    (ha : a ≠ []) (hk : k ≠ []) :
    k = ("one".data) ∨ k = ("ne".data) ∨ k = ("e".data) := by
  rcases a with _ | ⟨c1, a⟩
  · exact absurd rfl ha
  rcases a with _ | ⟨c2, a⟩
  · injection hsplit with h1 h2
    exact Or.inl h2.symm
  rcases a with _ | ⟨c3, a⟩
  · injection hsplit with h1 h2
    injection h2 with h3 h4
    exact Or.inr (Or.inl h4.symm)
  rcases a with _ | ⟨c4, a⟩
  · injection hsplit with h1 h2
    injection h2 with h3 h4
    injection h4 with h5 h6
    exact Or.inr (Or.inr h6.symm)
  · exfalso
    injection hsplit with h1 h2
    injection h2 with h3 h4
    injection h4 with h5 h6
    injection h6 with h7 h8
    exact hk (List.append_eq_nil.mp h8.symm).2

/-- Splitting "None" into two non-empty pieces: the left piece is
"N", "No", or "Non". -/
theorem none_split_left {a k : List Char} (hsplit : ("None".data) = a ++ k)
    (ha : a ≠ []) (hk : k ≠ []) :
    a = ("N".data) ∨ a = ("No".data) ∨ a = ("Non".data) := by
  rcases a with _ | ⟨c1, a⟩
  · exact absurd rfl ha
  rcases a with _ | ⟨c2, a⟩
  · injection hsplit with h1 h2
    subst h1
    exact Or.inl rfl
  rcases a with _ | ⟨c3, a⟩
  · injection hsplit with h1 h2
    injection h2 with h3 h4
    subst h1; subst h3
    exact Or.inr (Or.inl rfl)
  rcases a with _ | ⟨c4, a⟩
  · injection hsplit with h1 h2
    injection h2 with h3 h4
    injection h4 with h5 h6
    subst h1; subst h3; subst h5
    exact Or.inr (Or.inr rfl)
  · exfalso
    injection hsplit with h1 h2
    injection h2 with h3 h4
    injection h4 with h5 h6
    injection h6 with h7 h8
    exact hk (List.append_eq_nil.mp h8.symm).2

/-- Gluing lemma: "None" stays absent across a concatenation whose right part
does not start with 'o', 'n', or 'e'. -/
theorem noNone_glue_head {X Y : List Char}
    (hx : pyInStr ("None".data) X = false) (hy : pyInStr ("None".data) Y = false)
    (hhead : ∀ c, Y.head? = some c → ¬ (c = 'o' ∨ c = 'n' ∨ c = 'e')) :
    pyInStr ("None".data) (X ++ Y) = false := by
  rcases Bool.eq_false_or_eq_true (pyInStr ("None".data) (X ++ Y)) with hb | hb
  case inr => exact hb
  exfalso
  rcases pyInStr_append_cases hb with hX | hY | ⟨a, k, hsplit, ha, hk, _, ⟨y, rfl⟩⟩
  · rw [hX] at hx
    cases hx
  · rw [hY] at hy
    cases hy
  · rcases none_split_right hsplit ha hk with rfl | rfl | rfl
    · exact hhead 'o' rfl (Or.inl rfl)
    · exact hhead 'n' rfl (Or.inr (Or.inl rfl))
    · exact hhead 'e' rfl (Or.inr (Or.inr rfl))

/-- Gluing lemma: "None" stays absent across a concatenation whose left part
does not end with 'N', 'o', or 'n'. -/
theorem noNone_glue_last {X Y : List Char}
    (hx : pyInStr ("None".data) X = false) (hy : pyInStr ("None".data) Y = false)
    (hlast : ∀ c, X.getLast? = some c → ¬ (c = 'N' ∨ c = 'o' ∨ c = 'n')) :
    pyInStr ("None".data) (X ++ Y) = false := by
  rcases Bool.eq_false_or_eq_true (pyInStr ("None".data) (X ++ Y)) with hb | hb
  case inr => exact hb
  exfalso
  rcases pyInStr_append_cases hb with hX | hY | ⟨a, k, hsplit, ha, hk, ⟨x, rfl⟩, _⟩
  · rw [hX] at hx
    cases hx
  · rw [hY] at hy
    cases hy
  · have hgl : (x ++ a).getLast? = a.getLast? := List.getLast?_append_of_ne_nil x ha
    rcases none_split_left hsplit ha hk with rfl | rfl | rfl
    · exact hlast 'N' (by rw [hgl]; rfl) (Or.inl rfl)
    · exact hlast 'o' (by rw [hgl]; rfl) (Or.inr (Or.inl rfl))
    · exact hlast 'n' (by rw [hgl]; rfl) (Or.inr (Or.inr rfl))

theorem lastCharCond {X : List Char} {d : Char} (h : X.getLast? = some d)
    (hd : ¬ (d = 'N' ∨ d = 'o' ∨ d = 'n')) :
    ∀ c, X.getLast? = some c → ¬ (c = 'N' ∨ c = 'o' ∨ c = 'n') := by
  intro c hc
  rw [h] at hc
  rcases Option.some.inj hc with rfl
  exact hd

theorem headCharCond {Y : List Char} {d : Char} (h : Y.head? = some d)
    (hd : ¬ (d = 'o' ∨ d = 'n' ∨ d = 'e')) :
    ∀ c, Y.head? = some c → ¬ (c = 'o' ∨ c = 'n' ∨ c = 'e') := by
  intro c hc
  rw [h] at hc
  rcases Option.some.inj hc with rfl
  exact hd

/-- `generate_cover_letter` with the template concatenation re-associated to
the right. -/
theorem generate_cover_letter_assoc (today : PyDate)
    (name company position job_text summary : List Char) :
    generate_cover_letter today name company position job_text summary =
      strftimeBdY today ++ ("\n\nDear Hiring Team at ".data ++ (company ++
        (",\n\nI am excited to apply for the ".data ++ (position ++
          (" role. My background aligns closely with this opportunity, especially in areas such as ".data ++
            (List.intercalate (", ".data) ((extract_jargon_keywords job_text 10).take 6) ++
              (". ".data ++ (summary ++
                ("\n\nI look forward to contributing to ".data ++ (company ++
                  ("\x27s success.\n\nSincerely,\n".data ++ name))))))))))) := by
  unfold generate_cover_letter
  simp [List.append_assoc]

/-- C9: the cover letter starts with today's date in "%B %d, %Y" format (full
month name, two-digit day, the decimal year — four digits for any year
1000–9999); it embeds the summary verbatim and the comma-joined first 6
keywords of a separately computed top-10 extraction; and when that
extraction is empty the keyword clause is the empty string and the letter
never contains "None" (assuming no input field contains it). -/
theorem c9_cover_letter (today : PyDate)
    (name company position job_text summary : List Char) :
    beginsWith (strftimeBdY today)
      (generate_cover_letter today name company position job_text summary) = true ∧
    pyInStr summary
      (generate_cover_letter today name company position job_text summary) = true ∧
    pyInStr (List.intercalate (", ".data) ((extract_jargon_keywords job_text 10).take 6))
      (generate_cover_letter today name company position job_text summary) = true ∧
    strftimeBdY today =
      monthName today.month ++ " ".data ++ fmtDay today.day ++ ", ".data ++
        (Nat.repr today.year).data ∧
    (1000 ≤ today.year → today.year < 10000 → ((Nat.repr today.year).data).length = 4) ∧
    (today.day < 100 → (fmtDay today.day).length = 2) ∧
    (extract_jargon_keywords job_text 10 = [] →
      List.intercalate (", ".data) ((extract_jargon_keywords job_text 10).take 6) = [] ∧
      (pyInStr ("None".data) (strftimeBdY today) = false →
        pyInStr ("None".data) name = false →
        pyInStr ("None".data) company = false →
        pyInStr ("None".data) position = false →
        pyInStr ("None".data) summary = false →
        pyInStr ("None".data)
          (generate_cover_letter today name company position job_text summary) = false)) := by
  refine ⟨?_, ?_, ?_, rfl, fun h1 h2 => repr_data_len4 h1 h2, fun h => fmtDay_len h,
    fun hemp => ⟨by rw [hemp]; rfl, ?_⟩⟩
  · rw [generate_cover_letter_assoc]
    exact beginsWith_append_self _ _
  · rw [generate_cover_letter_assoc]
    exact pyInStr_append_left _ (pyInStr_append_left _ (pyInStr_append_left _
      (pyInStr_append_left _ (pyInStr_append_left _ (pyInStr_append_left _
        (pyInStr_append_left _ (pyInStr_append_left _ (pyInStr_self_append _ _))))))))
  · rw [generate_cover_letter_assoc]
    exact pyInStr_append_left _ (pyInStr_append_left _ (pyInStr_append_left _
      (pyInStr_append_left _ (pyInStr_append_left _ (pyInStr_append_left _
        (pyInStr_self_append _ _))))))
  · intro hdate hname hcomp hpos hsum
    rw [generate_cover_letter_assoc, hemp]
    simp only [List.take_nil]
    rw [show List.intercalate (", ".data) ([] : List (List Char)) = [] from rfl]
    simp only [List.nil_append]
    have t1 := noNone_glue_last (by decide) hname
      (lastCharCond (X := ("\x27s success.\n\nSincerely,\n".data)) (d := '\n') (by decide) (by decide))
    have t2 := noNone_glue_head hcomp t1 (headCharCond rfl (by decide))
    have t3 := noNone_glue_last (by decide) t2
      (lastCharCond (X := ("\n\nI look forward to contributing to ".data)) (d := ' ') (by decide) (by decide))
    have t4 := noNone_glue_head hsum t3 (headCharCond rfl (by decide))
    have t5 := noNone_glue_last (by decide) t4
      (lastCharCond (X := (". ".data)) (d := ' ') (by decide) (by decide))
    have t6 := noNone_glue_last (by decide) t5
      (lastCharCond (X := (" role. My background aligns closely with this opportunity, especially in areas such as ".data)) (d := ' ') (by decide) (by decide))
    have t7 := noNone_glue_head hpos t6 (headCharCond rfl (by decide))
    have t8 := noNone_glue_last (by decide) t7
      (lastCharCond (X := (",\n\nI am excited to apply for the ".data)) (d := ' ') (by decide) (by decide))
    have t9 := noNone_glue_head hcomp t8 (headCharCond rfl (by decide))
    have t10 := noNone_glue_last (by decide) t9
      (lastCharCond (X := ("\n\nDear Hiring Team at ".data)) (d := ' ') (by decide) (by decide))
    exact noNone_glue_head hdate t10 (headCharCond rfl (by decide))

/-- Witness for C9 at a concrete date and concrete fields with an empty job
text. -/
theorem c9_cover_letter_witness :
    ((Nat.repr (2026 : Nat)).data).length = 4 ∧
    (fmtDay 12).length = 2 ∧
    pyInStr ("None".data)
      (generate_cover_letter ⟨2026, 10, 12⟩ ("Ada".data) ("Acme".data)
        ("Engineer".data) [] ("I ship.".data)) = false :=
  ⟨(c9_cover_letter ⟨2026, 10, 12⟩ ("Ada".data) ("Acme".data) ("Engineer".data) []
      ("I ship.".data)).2.2.2.2.1 (by decide) (by decide),
   (c9_cover_letter ⟨2026, 10, 12⟩ ("Ada".data) ("Acme".data) ("Engineer".data) []
      ("I ship.".data)).2.2.2.2.2.1 (by decide),
   ((c9_cover_letter ⟨2026, 10, 12⟩ ("Ada".data) ("Acme".data) ("Engineer".data) []
      ("I ship.".data)).2.2.2.2.2.2 rfl).2 (by decide) (by decide) (by decide)
      (by decide) (by decide)⟩

/-!
## Claim C4: HTML escaping
-/

/-- What `escape_html` does to one character (the four chained replaces
never interfere: the entity text introduced for one character contains no
character replaced by a later stage except the leading ampersand already
handled by the first stage). -/
def escCh (c : Char) : List Char :=
  if c = '&' then "&amp;".data
  else if c = '<' then "&lt;".data
  else if c = '>' then "&gt;".data
  else if c = '"' then "&quot;".data
  else [c]

/-- `escape_html` as a character-by-character map. -/
def escAll : List Char → List Char
  | [] => []
  | c :: s => escCh c ++ escAll s

theorem pyReplaceChar_foldr_init (pat : Char) (repl : List Char) :
    ∀ (x : List Char) (B : List Char),
      x.foldr (fun c acc => if c == pat then repl ++ acc else c :: acc) B =
      x.foldr (fun c acc => if c == pat then repl ++ acc else c :: acc) [] ++ B := by
  intro x
  induction x with
  | nil => intro B; rfl
  | cons c t ih =>
    intro B
    simp only [List.foldr_cons]
    by_cases h : c == pat
    · simp only [h, if_true, ih B, List.append_assoc]
    · simp only [h, Bool.false_eq_true, if_false, ih B, List.cons_append]

theorem pyReplaceChar_cons (pat : Char) (repl : List Char) (c : Char) (s : List Char) :
    pyReplaceChar pat repl (c :: s) =
      (if c = pat then repl else [c]) ++ pyReplaceChar pat repl s := by
  unfold pyReplaceChar
  rw [List.foldr_cons]
  by_cases h : c = pat
  · simp [h]
  · have hb : (c == pat) = false := by simpa using h
    simp [hb, h]

theorem pyReplaceChar_append (pat : Char) (repl : List Char) (x y : List Char) :
    pyReplaceChar pat repl (x ++ y) =
      pyReplaceChar pat repl x ++ pyReplaceChar pat repl y := by
  unfold pyReplaceChar
  rw [List.foldr_append, pyReplaceChar_foldr_init]

theorem escape_html_cons (c : Char) (s : List Char) :
    escape_html (c :: s) = escCh c ++ escape_html s := by
  by_cases h1 : c = '&'
  · subst h1
    unfold escape_html
    rw [pyReplaceChar_cons, if_pos rfl, pyReplaceChar_append,
      show pyReplaceChar '<' ("&lt;".data) ("&amp;".data) = ("&amp;".data) from by decide,
      pyReplaceChar_append,
      show pyReplaceChar '>' ("&gt;".data) ("&amp;".data) = ("&amp;".data) from by decide,
      pyReplaceChar_append,
      show pyReplaceChar '"' ("&quot;".data) ("&amp;".data) = ("&amp;".data) from by decide]
    rfl
  by_cases h2 : c = '<'
  · subst h2
    unfold escape_html
    rw [pyReplaceChar_cons, if_neg h1,
      show pyReplaceChar '<' ("&lt;".data) (['<'] ++ pyReplaceChar '&' ("&amp;".data) s) =
        pyReplaceChar '<' ("&lt;".data) ['<'] ++
          pyReplaceChar '<' ("&lt;".data) (pyReplaceChar '&' ("&amp;".data) s) from
        pyReplaceChar_append _ _ _ _,
      show pyReplaceChar '<' ("&lt;".data) ['<'] = ("&lt;".data) from by decide,
      pyReplaceChar_append,
      show pyReplaceChar '>' ("&gt;".data) ("&lt;".data) = ("&lt;".data) from by decide,
      pyReplaceChar_append,
      show pyReplaceChar '"' ("&quot;".data) ("&lt;".data) = ("&lt;".data) from by decide]
    rfl
  by_cases h3 : c = '>'
  · subst h3
    unfold escape_html
    rw [pyReplaceChar_cons, if_neg h1, pyReplaceChar_append,
      show pyReplaceChar '<' ("&lt;".data) ['>'] = ['>'] from by decide,
      pyReplaceChar_append,
      show pyReplaceChar '>' ("&gt;".data) ['>'] = ("&gt;".data) from by decide,
      pyReplaceChar_append,
      show pyReplaceChar '"' ("&quot;".data) ("&gt;".data) = ("&gt;".data) from by decide]
    rfl
  by_cases h4 : c = '"'
  · subst h4
    unfold escape_html
    rw [pyReplaceChar_cons, if_neg h1, pyReplaceChar_append,
      show pyReplaceChar '<' ("&lt;".data) ['"'] = ['"'] from by decide,
      pyReplaceChar_append,
      show pyReplaceChar '>' ("&gt;".data) ['"'] = ['"'] from by decide,
      pyReplaceChar_append,
      show pyReplaceChar '"' ("&quot;".data) ['"'] = ("&quot;".data) from by decide]
    rfl
  · unfold escape_html
    rw [pyReplaceChar_cons, if_neg h1, pyReplaceChar_append,
      show pyReplaceChar '<' ("&lt;".data) [c] = [c] from by
        rw [pyReplaceChar_cons, if_neg h2]; rfl,
      pyReplaceChar_append,
      show pyReplaceChar '>' ("&gt;".data) [c] = [c] from by
        rw [pyReplaceChar_cons, if_neg h3]; rfl,
      pyReplaceChar_append,
      show pyReplaceChar '"' ("&quot;".data) [c] = [c] from by
        rw [pyReplaceChar_cons, if_neg h4]; rfl]
    show [c] ++ _ = escCh c ++ _
    rw [show escCh c = [c] from by unfold escCh; rw [if_neg h1, if_neg h2, if_neg h3, if_neg h4]]

theorem escape_html_eq_escAll (s : List Char) : escape_html s = escAll s := by
  induction s with
  | nil => rfl
  | cons c t ih => rw [escape_html_cons, ih]; rfl

theorem escCh_no_markup (c : Char) :
    ('<' ∉ escCh c) ∧ ('>' ∉ escCh c) ∧ ('"' ∉ escCh c) := by
  unfold escCh
  by_cases h1 : c = '&'
  · simp [h1]
  by_cases h2 : c = '<'
  · simp [h1, h2]
  by_cases h3 : c = '>'
  · simp [h1, h2, h3]
  by_cases h4 : c = '"'
  · simp [h1, h2, h3, h4]
  · simp only [if_neg h1, if_neg h2, if_neg h3, if_neg h4, List.mem_singleton]
    exact ⟨fun h => h2 h.symm, fun h => h3 h.symm, fun h => h4 h.symm⟩

theorem escAll_no_markup (s : List Char) :
    ('<' ∉ escAll s) ∧ ('>' ∉ escAll s) ∧ ('"' ∉ escAll s) := by
  induction s with
  | nil => exact ⟨List.not_mem_nil _, List.not_mem_nil _, List.not_mem_nil _⟩
  | cons c t ih =>
    have hc := escCh_no_markup c
    refine ⟨?_, ?_, ?_⟩ <;> intro hmem <;>
      rcases List.mem_append.mp hmem with h | h
    · exact hc.1 h
    · exact ih.1 h
    · exact hc.2.1 h
    · exact ih.2.1 h
    · exact hc.2.2 h
    · exact ih.2.2 h

theorem split_cons_append {x y ch R : List Char} (h : x ++ '&' :: y = ch ++ R) :
    (∃ x2, x = ch ++ x2 ∧ x2 ++ '&' :: y = R) ∨
    (∃ y1, ch = x ++ '&' :: y1 ∧ y = y1 ++ R) := by
  rcases List.append_eq_append_iff.mp h with ⟨a', ha1, ha2⟩ | ⟨c', hc1, hc2⟩
  · cases a' with
    | nil =>
      exact Or.inl ⟨[], by simpa using ha1.symm, by simpa using ha2⟩
    | cons d a'' =>
      injection ha2 with hd ht
      subst hd
      exact Or.inr ⟨a'', by rw [ha1], ht⟩
  · exact Or.inl ⟨c', hc1, hc2.symm⟩

theorem amp_pos {tail x y1 : List Char} (h : x ++ '&' :: y1 = '&' :: tail)
    (hno : '&' ∉ tail) : x = [] ∧ y1 = tail := by
  cases x with
  | nil =>
    refine ⟨rfl, ?_⟩
    injection h
  | cons d x' =>
    injection h with h1 h2
    exfalso
    apply hno
    rw [← h2]
    exact List.mem_append.mpr (Or.inr (List.mem_cons_self _ _))

theorem escAll_amp (s : List Char) : ∀ x y, escAll s = x ++ '&' :: y →
    (beginsWith ("amp;".data) y || beginsWith ("lt;".data) y ||
     beginsWith ("gt;".data) y || beginsWith ("quot;".data) y) = true := by
  induction s with
  | nil =>
    intro x y h
    exfalso
    rcases List.append_eq_nil.mp h.symm with ⟨_, h2⟩
    cases h2
  | cons c t ih =>
    intro x y h
    rw [show escAll (c :: t) = escCh c ++ escAll t from rfl] at h
    rcases split_cons_append h.symm with ⟨x2, _, hR⟩ | ⟨y1, hch, hy⟩
    · exact ih x2 y hR.symm
    · by_cases h1 : c = '&'
      · subst h1
        have := @amp_pos ("amp;".data) _ _ (by rw [← hch]; rfl) (by decide)
        rw [hy, this.2, beginsWith_append_self]
        simp
      by_cases h2 : c = '<'
      · subst h2
        have := @amp_pos ("lt;".data) _ _ (by rw [← hch]; rfl) (by decide)
        rw [hy, this.2, beginsWith_append_self]
        simp
      by_cases h3 : c = '>'
      · subst h3
        have := @amp_pos ("gt;".data) _ _ (by rw [← hch]; rfl) (by decide)
        rw [hy, this.2, beginsWith_append_self]
        simp
      by_cases h4 : c = '"'
      · subst h4
        have := @amp_pos ("quot;".data) _ _ (by rw [← hch]; rfl) (by decide)
        rw [hy, this.2, beginsWith_append_self]
        simp
      · exfalso
        rw [show escCh c = [c] from by
          unfold escCh; rw [if_neg h1, if_neg h2, if_neg h3, if_neg h4]] at hch
        cases x with
        | nil =>
          injection hch with h5 h6
          exact h1 h5
        | cons d x' =>
          injection hch with h5 h6
          rcases List.append_eq_nil.mp h6.symm with ⟨_, h7⟩
          cases h7

/-- C4: every `parts` entry of the diff renderer is either escaped text or a
styled span wrapping escaped text; escaped text never contains a raw `<`,
`>`, or `"`; and every `&` in escaped text begins one of the four entities
`&amp;` `&lt;` `&gt;` `&quot;` — so no input character survives as raw
markup. -/
theorem c4_rendered_text_escaped (orig_text new_text : List Char) :
    (∀ part ∈ diffParts (pySplit orig_text) (pySplit new_text),
      (∃ t, part = escape_html t) ∨ (∃ st t, part = spanWrap st (escape_html t))) ∧
    (∀ s, ('<' ∉ escape_html s) ∧ ('>' ∉ escape_html s) ∧ ('"' ∉ escape_html s)) ∧
    (∀ s x y, escape_html s = x ++ '&' :: y →
      (beginsWith ("amp;".data) y || beginsWith ("lt;".data) y ||
       beginsWith ("gt;".data) y || beginsWith ("quot;".data) y) = true) := by
  refine ⟨?_, ?_, ?_⟩
  · intro part hpart
    unfold diffParts at hpart
    rw [List.mem_flatten] at hpart
    obtain ⟨l, hl, hpl⟩ := hpart
    obtain ⟨op, _, rfl⟩ := List.mem_map.mp hl
    rcases op with ⟨tag, i1, i2, j1, j2⟩
    cases tag with
    | equal =>
      rcases List.mem_singleton.mp hpl with rfl
      exact Or.inl ⟨_, rfl⟩
    | insert =>
      rcases List.mem_singleton.mp hpl with rfl
      exact Or.inr ⟨_, _, rfl⟩
    | delete =>
      rcases List.mem_singleton.mp hpl with rfl
      exact Or.inr ⟨_, _, rfl⟩
    | replace =>
      rcases List.mem_cons.mp hpl with rfl | hpl'
      · exact Or.inr ⟨_, _, rfl⟩
      · rcases List.mem_singleton.mp hpl' with rfl
        exact Or.inr ⟨_, _, rfl⟩
  · intro s
    rw [escape_html_eq_escAll]
    exact escAll_no_markup s
  · intro s x y h
    rw [escape_html_eq_escAll] at h
    exact escAll_amp s x y h

/-- Witness for C4 at two concrete texts with markup characters. -/
theorem c4_rendered_text_escaped_witness :
    (∃ t, escape_html (joinWords (pySlice (pySplit ("a <b> & c".data)) 0 1)) =
        escape_html t) ∨
    (∃ st t, escape_html (joinWords (pySlice (pySplit ("a <b> & c".data)) 0 1)) =
        spanWrap st (escape_html t)) :=
  (c4_rendered_text_escaped ("a <b> & c".data) ("a <i> & c".data)).1
    (escape_html (joinWords (pySlice (pySplit ("a <b> & c".data)) 0 1))) (by decide)

/-!
## Claim C3: `render_diff(X, X)` produces only equal spans

For `a = b = w` the `j2len` dynamic program only ever promotes diagonal
blocks: the invariant below tracks that the running best block sits on the
diagonal with size the maximum `P`-run seen so far, where `P i` says the
element `w[i]` survived the autojunk purge (its `b2j` entry is non-empty).
The extension loops then stretch any diagonal block to the full range.
-/

/-- `w[i]` has a surviving `b2j` entry. -/
def Pmem (w : List (List Char)) (i : Nat) : Prop := b2j w (w.getD i []) ≠ []

instance PmemDec (w : List (List Char)) (i : Nat) : Decidable (Pmem w i) :=
  inferInstanceAs (Decidable (_ ≠ _))

/-- Length of the maximal suffix of `0..i` lying in `Pmem`. -/
def runLen (w : List (List Char)) : Nat → Nat
  | 0 => if Pmem w 0 then 1 else 0
  | i + 1 => if Pmem w (i + 1) then runLen w i + 1 else 0

def prevRun (w : List (List Char)) : Nat → Nat
  | 0 => 0
  | i + 1 => runLen w i

def maxRunBelow (w : List (List Char)) : Nat → Nat
  | 0 => 0
  | i + 1 => max (maxRunBelow w i) (runLen w i)

theorem runLen_of_mem {w : List (List Char)} {i : Nat} (h : Pmem w i) :
    runLen w i = prevRun w i + 1 := by
  cases i with
  | zero => simp [runLen, prevRun, h]
  | succ i => simp [runLen, prevRun, h]

theorem runLen_of_not_mem {w : List (List Char)} {i : Nat} (h : ¬ Pmem w i) :
    runLen w i = 0 := by
  cases i with
  | zero => simp [runLen, h]
  | succ i => simp [runLen, h]

theorem runLen_le (w : List (List Char)) (i : Nat) : runLen w i ≤ i + 1 := by
  induction i with
  | zero =>
    by_cases h : Pmem w 0 <;> simp [runLen, h]
  | succ i ih =>
    by_cases h : Pmem w (i + 1)
    · simp [runLen, h]
      omega
    · simp [runLen, h]

theorem runLen_le_maxRunBelow {w : List (List Char)} {m i : Nat} (h : m < i) :
    runLen w m ≤ maxRunBelow w i := by
  induction i with
  | zero => omega
  | succ i ih =>
    rcases Nat.lt_succ_iff_lt_or_eq.mp h with h' | rfl
    · exact le_trans (ih h') (Nat.le_max_left _ _)
    · exact Nat.le_max_right _ _

theorem b2j_eq_occIdx {w : List (List Char)} {v : List Char} (h : b2j w v ≠ []) :
    b2j w v = occIdx w v := by
  by_cases hc : 200 ≤ w.length ∧ w.length / 100 + 1 < (occIdx w v).length
  · exfalso
    apply h
    unfold b2j
    simp only [if_pos hc]
  · unfold b2j
    simp only [if_neg hc]

theorem mem_b2j_lt {w : List (List Char)} {v : List Char} {j : Nat}
    (h : j ∈ b2j w v) : j < w.length := by
  have hne : b2j w v ≠ [] := by
    intro hnil
    rw [hnil] at h
    cases h
  rw [b2j_eq_occIdx hne] at h
  exact List.mem_range.mp (List.mem_filter.mp h).1

theorem mem_b2j_val {w : List (List Char)} {v : List Char} {j : Nat}
    (h : j ∈ b2j w v) : w.getD j [] = v := by
  have hne : b2j w v ≠ [] := by
    intro hnil
    rw [hnil] at h
    cases h
  rw [b2j_eq_occIdx hne] at h
  have := (List.mem_filter.mp h).2
  simpa using this

theorem mem_b2j_P {w : List (List Char)} {i j : Nat}
    (h : j ∈ b2j w (w.getD i [])) : Pmem w j := by
  unfold Pmem
  rw [mem_b2j_val h]
  intro hnil
  rw [hnil] at h
  cases h

theorem self_mem_b2j {w : List (List Char)} {i : Nat} (hP : Pmem w i)
    (hi : i < w.length) : i ∈ b2j w (w.getD i []) := by
  rw [b2j_eq_occIdx hP]
  unfold occIdx
  exact List.mem_filter.mpr ⟨List.mem_range.mpr hi, by simp⟩

theorem filter_b2j_all (w : List (List Char)) (v : List Char) :
    (b2j w v).filter (fun j => decide (0 ≤ j) && decide (j < w.length)) = b2j w v := by
  apply List.filter_eq_self.mpr
  intro j hj
  simp [mem_b2j_lt hj]

theorem b2j_split {w : List (List Char)} {i : Nat} (hP : Pmem w i)
    (hi : i < w.length) :
    ∃ L R, b2j w (w.getD i []) = L ++ i :: R ∧
      (∀ j ∈ L, j < i) ∧ (∀ j ∈ R, i < j) := by
  rw [b2j_eq_occIdx hP]
  have hrange : List.range w.length =
      List.range i ++ List.range' i (w.length - i) := by
    have h2 : w.length - i + i = w.length := by omega
    have h3 := List.range'_append 0 i (w.length - i) 1
    simp only [Nat.zero_add, Nat.one_mul, h2] at h3
    rw [List.range_eq_range', List.range_eq_range']
    exact h3.symm
  have hsplit2 : List.range' i (w.length - i) =
      i :: List.range' (i + 1) (w.length - i - 1) := by
    have : w.length - i = (w.length - i - 1) + 1 := by omega
    rw [this]
    rfl
  unfold occIdx
  rw [hrange, hsplit2, List.filter_append, List.filter_cons]
  simp only [show (decide (w.getD i [] = w.getD i []) : Bool) = true by simp, if_true]
  refine ⟨(List.range i).filter _, (List.range' (i + 1) (w.length - i - 1)).filter _,
    rfl, ?_, ?_⟩
  · intro j hj
    exact List.mem_range.mp (List.mem_filter.mp hj).1
  · intro j hj
    have := List.mem_range'_1.mp (List.mem_filter.mp hj).1
    omega

/-- The `k` computed by the inner loop at column `j` (Python's
`j2lenget(j-1, 0) + 1`). -/
def flmK (old : Nat → Nat) (j : Nat) : Nat :=
  (if j = 0 then 0 else old (j - 1)) + 1

theorem flmInner_cons (old : Nat → Nat) (i : Nat) (nw : Nat → Nat) (best : FlmBest)
    (j : Nat) (js : List Nat) :
    flmInner old i (nw, best) (j :: js) =
      flmInner old i
        ((fun m => if m = j then flmK old j else nw m),
          (if best.bestsize < flmK old j then
            (⟨i + 1 - flmK old j, j + 1 - flmK old j, flmK old j⟩ : FlmBest)
           else best)) js := by
  rw [flmInner, flmK]

theorem flmInner_append (old : Nat → Nat) (i : Nat) (st : (Nat → Nat) × FlmBest)
    (l1 l2 : List Nat) :
    flmInner old i st (l1 ++ l2) = flmInner old i (flmInner old i st l1) l2 := by
  induction l1 generalizing st with
  | nil => rfl
  | cons j t ih =>
    rcases st with ⟨nw, best⟩
    rw [List.cons_append, flmInner, flmInner]
    exact ih _

theorem flmK_le_runj {w : List (List Char)} {old : Nat → Nat} {i j : Nat}
    (hmem : j ∈ b2j w (w.getD i [])) (h1 : ∀ m, old m ≤ runLen w m) :
    flmK old j ≤ runLen w j := by
  have hPj := mem_b2j_P hmem
  cases j with
  | zero =>
    rw [runLen_of_mem hPj]
    simp [flmK, prevRun]
  | succ j' =>
    rw [runLen_of_mem hPj]
    have : flmK old (j' + 1) = old j' + 1 := by simp [flmK]
    rw [this]
    have := h1 j'
    simp only [prevRun]
    omega

theorem flmK_le_runi {w : List (List Char)} {old : Nat → Nat} {i : Nat}
    (hPi : Pmem w i) (h2 : ∀ m, old m ≤ prevRun w i) (j : Nat) :
    flmK old j ≤ runLen w i := by
  rw [runLen_of_mem hPi]
  unfold flmK
  by_cases hj : j = 0
  · simp [hj]
  · have := h2 (j - 1)
    simp only [if_neg hj]
    omega

theorem flmK_diag {w : List (List Char)} {old : Nat → Nat} {i : Nat}
    (hPi : Pmem w i) (h3 : ∀ m, m + 1 = i → old m = runLen w m) :
    flmK old i = runLen w i := by
  rw [runLen_of_mem hPi]
  cases i with
  | zero => simp [flmK, prevRun]
  | succ i' =>
    have : flmK old (i' + 1) = old i' + 1 := by simp [flmK]
    rw [this, h3 i' rfl]
    simp [prevRun]

theorem flmInner_noupdate (old : Nat → Nat) (i : Nat) (js' : List Nat)
    (nw : Nat → Nat) (best : FlmBest)
    (hk : ∀ j ∈ js', flmK old j ≤ best.bestsize) :
    flmInner old i (nw, best) js' =
      ((fun m => if m ∈ js' then flmK old m else nw m), best) := by
  induction js' generalizing nw with
  | nil =>
    show (nw, best) = _
    refine Prod.ext ?_ rfl
    funext m
    simp
  | cons j t ih =>
    rw [flmInner_cons]
    have hkj := hk j (List.mem_cons_self _ _)
    rw [if_neg (by omega : ¬ best.bestsize < flmK old j)]
    rw [ih (fun m => if m = j then flmK old j else nw m)
      (fun j' hj' => hk j' (List.mem_cons_of_mem _ hj'))]
    refine Prod.ext ?_ rfl
    funext m
    by_cases hmt : m ∈ t
    · simp [hmt, List.mem_cons]
    · by_cases hmj : m = j
      · subst hmj
        simp [hmt, List.mem_cons]
      · simp [hmt, hmj, List.mem_cons]

/-- Invariant of the outer DP loop for `a = b = w`: the best block is
diagonal with size the largest run so far, stays inside the processed
prefix, and the previous row is bounded by (and exact on the diagonal of)
the run lengths. -/
def flmInv (w : List (List Char)) (i : Nat) (old : Nat → Nat) (best : FlmBest) : Prop :=
  (∀ j, old j ≤ runLen w j) ∧
  (∀ j, old j ≤ prevRun w i) ∧
  (∀ m, m + 1 = i → old m = runLen w m) ∧
  best.besti = best.bestj ∧
  best.bestsize = maxRunBelow w i ∧
  best.besti + best.bestsize ≤ i

theorem flmStep_inv {w : List (List Char)} {i : Nat} (hi : i < w.length)
    {old : Nat → Nat} {best : FlmBest} (hinv : flmInv w i old best) :
    flmInv w (i + 1)
      (flmInner old i ((fun _ => 0), best) (b2j w (w.getD i []))).1
      (flmInner old i ((fun _ => 0), best) (b2j w (w.getD i []))).2 := by
  obtain ⟨h1, h2, h3, hd, hbs, hbb⟩ := hinv
  by_cases hP : Pmem w i
  case neg =>
    have hnil : b2j w (w.getD i []) = [] := not_not.mp hP
    rw [hnil]
    show flmInv w (i + 1) ((fun _ => 0)) best
    refine ⟨fun j => Nat.zero_le _, fun j => Nat.zero_le _, ?_, hd, ?_, ?_⟩
    · intro m hm
      have : m = i := by omega
      subst this
      rw [runLen_of_not_mem hP]
    · have hmr : maxRunBelow w (i + 1) = max (maxRunBelow w i) (runLen w i) := rfl
      rw [hmr, runLen_of_not_mem hP]
      simp [hbs]
    · exact le_trans hbb (Nat.le_succ i)
  case pos =>
    obtain ⟨L, R, hsplit, hL, hR⟩ := b2j_split hP hi
    rw [hsplit, flmInner_append]
    have hLk : ∀ j ∈ L, flmK old j ≤ best.bestsize := by
      intro j hj
      have hjmem : j ∈ b2j w (w.getD i []) := by
        rw [hsplit]
        exact List.mem_append_left _ hj
      calc flmK old j ≤ runLen w j := flmK_le_runj hjmem h1
        _ ≤ maxRunBelow w i := runLen_le_maxRunBelow (hL j hj)
        _ = best.bestsize := hbs.symm
    rw [flmInner_noupdate old i L _ best hLk, flmInner_cons]
    have hki : flmK old i = runLen w i := flmK_diag hP h3
    have hb1d : (if best.bestsize < flmK old i then
        (⟨i + 1 - flmK old i, i + 1 - flmK old i, flmK old i⟩ : FlmBest)
        else best).besti =
        (if best.bestsize < flmK old i then
        (⟨i + 1 - flmK old i, i + 1 - flmK old i, flmK old i⟩ : FlmBest)
        else best).bestj := by
      split
      · rfl
      · exact hd
    have hb1s : (if best.bestsize < flmK old i then
        (⟨i + 1 - flmK old i, i + 1 - flmK old i, flmK old i⟩ : FlmBest)
        else best).bestsize = maxRunBelow w (i + 1) := by
      have hmr : maxRunBelow w (i + 1) = max (maxRunBelow w i) (runLen w i) := rfl
      rw [hmr]
      split
      case isTrue h => simp only; omega
      case isFalse h => omega
    have hb1b : (if best.bestsize < flmK old i then
        (⟨i + 1 - flmK old i, i + 1 - flmK old i, flmK old i⟩ : FlmBest)
        else best).besti +
        (if best.bestsize < flmK old i then
        (⟨i + 1 - flmK old i, i + 1 - flmK old i, flmK old i⟩ : FlmBest)
        else best).bestsize ≤ i + 1 := by
      split
      · simp only
        have hrl := runLen_le w i
        omega
      · omega
    have hRk : ∀ j ∈ R, flmK old j ≤ (if best.bestsize < flmK old i then
        (⟨i + 1 - flmK old i, i + 1 - flmK old i, flmK old i⟩ : FlmBest)
        else best).bestsize := by
      intro j hj
      have hmr : maxRunBelow w (i + 1) = max (maxRunBelow w i) (runLen w i) := rfl
      calc flmK old j ≤ runLen w i := flmK_le_runi hP h2 j
        _ ≤ maxRunBelow w (i + 1) := by rw [hmr]; exact Nat.le_max_right _ _
        _ = _ := hb1s.symm
    rw [flmInner_noupdate old i R _ _ hRk]
    refine ⟨?_, ?_, ?_, hb1d, hb1s, hb1b⟩
    · intro j
      simp only
      split_ifs with hjR hji hjL
      · have hjm : j ∈ b2j w (w.getD i []) := by
          rw [hsplit]
          exact List.mem_append_right _ (List.mem_cons_of_mem _ hjR)
        exact flmK_le_runj hjm h1
      · subst hji
        rw [hki]
      · have hjm : j ∈ b2j w (w.getD i []) := by
          rw [hsplit]
          exact List.mem_append_left _ hjL
        exact flmK_le_runj hjm h1
      · exact Nat.zero_le _
    · intro j
      simp only
      have hpr : prevRun w (i + 1) = runLen w i := rfl
      rw [hpr]
      split_ifs with hjR hji hjL
      · exact flmK_le_runi hP h2 j
      · rw [hki]
      · exact flmK_le_runi hP h2 j
      · exact Nat.zero_le _
    · intro m hm
      have : m = i := by omega
      subst this
      simp only
      have hiR : m ∉ R := fun h => absurd (hR m h) (lt_irrefl m)
      simp [hiR, hki]

theorem flmLoop_inv (w : List (List Char)) (k : Nat) :
    ∀ (i : Nat) (old : Nat → Nat) (best : FlmBest),
      i + k = w.length → flmInv w i old best →
      flmInv w w.length
        (flmLoop w w 0 w.length (List.range' i k) (old, best)).1
        (flmLoop w w 0 w.length (List.range' i k) (old, best)).2 := by
  induction k with
  | zero =>
    intro i old best hik hinv
    have hiw : i = w.length := by omega
    subst hiw
    exact hinv
  | succ k ih =>
    intro i old best hik hinv
    have hr : List.range' i (k + 1) = i :: List.range' (i + 1) k := rfl
    rw [hr]
    simp only [flmLoop]
    rw [filter_b2j_all w (w.getD i [])]
    exact ih (i + 1) _ _ (by omega) (flmStep_inv (by omega) hinv)

theorem extendLeft_diag (w : List (List Char)) :
    ∀ (d s : Nat), extendLeft w w 0 0 d ⟨d, d, s⟩ = ⟨0, 0, s + d⟩ := by
  intro d
  induction d with
  | zero =>
    intro s
    simp [extendLeft]
  | succ d ih =>
    intro s
    rw [extendLeft, if_pos ⟨Nat.succ_pos d, Nat.succ_pos d, rfl⟩]
    show extendLeft w w 0 0 d ⟨d, d, s + 1⟩ = ⟨0, 0, s + (d + 1)⟩
    rw [ih (s + 1)]
    have : s + 1 + d = s + (d + 1) := by omega
    rw [this]

theorem extendRight_diag (w : List (List Char)) :
    ∀ (fuel s : Nat), w.length ≤ s + fuel → s ≤ w.length →
      extendRight w w w.length w.length fuel ⟨0, 0, s⟩ = ⟨0, 0, w.length⟩ := by
  intro fuel
  induction fuel with
  | zero =>
    intro s h1 h2
    have : s = w.length := by omega
    subst this
    rfl
  | succ fuel ih =>
    intro s h1 h2
    by_cases hs : s < w.length
    · rw [extendRight, if_pos (by simp [hs])]
      show extendRight w w w.length w.length fuel ⟨0, 0, s + 1⟩ = ⟨0, 0, w.length⟩
      exact ih (s + 1) (by omega) (by omega)
    · have hsn : s = w.length := by omega
      subst hsn
      rw [extendRight, if_neg (by simp)]

theorem flm_diag (w : List (List Char)) :
    find_longest_match w w 0 w.length 0 w.length = ⟨0, 0, w.length⟩ := by
  have hinv0 : flmInv w 0 (fun _ => 0) ⟨0, 0, 0⟩ :=
    ⟨fun j => Nat.zero_le _, fun j => Nat.zero_le _,
     fun m hm => absurd hm (by omega), rfl, rfl, Nat.le_refl 0⟩
  have hloop := flmLoop_inv w w.length 0 (fun _ => 0) ⟨0, 0, 0⟩ (by omega) hinv0
  set st := flmLoop w w 0 w.length (List.range' 0 w.length) ((fun _ => 0), ⟨0, 0, 0⟩)
    with hstdef
  obtain ⟨-, -, -, hd, hbs, hbb⟩ := hloop
  have hG : find_longest_match w w 0 w.length 0 w.length =
      extendRight w w w.length w.length w.length
        (extendLeft w w 0 0 st.2.besti st.2) := by
    rw [hstdef]
    simp [find_longest_match]
  rw [hG]
  have hEL : extendLeft w w 0 0 st.2.besti st.2 =
      ⟨0, 0, st.2.bestsize + st.2.besti⟩ := by
    have h := extendLeft_diag w st.2.besti st.2.bestsize
    rw [← h]
    congr 1
    nth_rewrite 2 [hd]
    rfl
  rw [hEL]
  exact extendRight_diag w w.length (st.2.bestsize + st.2.besti) (by omega) (by omega)

theorem matching_blocks_diag (w : List (List Char)) :
    get_matching_blocks w w =
      if w.length = 0 then [(0, 0, 0)]
      else [(0, 0, w.length), (w.length, w.length, 0)] := by
  unfold get_matching_blocks
  simp only [matchingBlocksGo, flm_diag]
  by_cases hn : w.length = 0
  · simp [hn, mergeBlocks]
  · simp [hn, mergeBlocks]

theorem get_opcodes_diag (w : List (List Char)) :
    get_opcodes w w =
      if w.length = 0 then [] else [(DTag.equal, 0, w.length, 0, w.length)] := by
  unfold get_opcodes
  rw [matching_blocks_diag]
  by_cases hn : w.length = 0
  · simp [hn, opcodesGo]
  · simp [hn, opcodesGo]

theorem joinWords_singleton (x : List Char) : joinWords [x] = x := by
  simp [joinWords, List.intercalate]

theorem pySlice_all (w : List (List Char)) : pySlice w 0 w.length = w := by
  simp [pySlice]

/-- C3: for every text `X`, `make_colored_unified_html(X, X)` produces only
`equal` opcodes — every opcode of the underlying `SequenceMatcher` diff is
`equal` — and the rendered output is exactly the escaped original text inside
the wrapping `<div>`, with no insert / delete / replace span markup. -/
theorem c3_identity_diff (X : List Char) :
    ((get_opcodes (pySplit X) (pySplit X)).all
      (fun op => op.1 == DTag.equal)) = true ∧
    make_colored_unified_html X X =
      divOpen ++ escape_html (joinWords (pySplit X)) ++ divClose := by
  constructor
  · rw [get_opcodes_diag]
    by_cases hn : (pySplit X).length = 0
    · simp [hn]
    · simp [hn]
  · simp only [make_colored_unified_html, diffParts]
    rw [get_opcodes_diag]
    by_cases hn : (pySplit X).length = 0
    · have hX : pySplit X = [] := List.length_eq_zero.mp hn
      have h1 : joinWords ([] : List (List Char)) = [] := rfl
      have h2 : escape_html ([] : List Char) = [] := rfl
      simp [hn, hX, h1, h2]
    · rw [if_neg hn]
      simp [renderOp, pySlice_all, joinWords_singleton]
